import Mathlib

/-!
# Verification of the guidance grammar / commit-parser specification

This file gives a shallow embedding of the grammar node model, the
nullability analysis, the Earley-style byte-level commit parser, the
match facade, the `guidance` decorator's placeholder protocol
(`src/guidance/_guidance.py`) and the regex-to-grammar transformer
dispatch (`src/guidance/library/_regex.py`), and proves the frozen
claims about them.

The core modules (`_grammar.py`, `_parser.py`) are not part of the
source excerpt: only their tests are.  Following the task rules, those
parts are modelled from the specification text (spec.md sections 3,
4.1, 4.2, 4.3); each such definition carries a doc comment starting
with `Modelled from the spec:`.  The decorator and the regex
transformer are translated directly from the source files present
under `src/`.
-/

namespace Guidance

/-- Modelled from the spec: the polymorphic Grammar Node data model
(spec section 3).  The possibly-cyclic node graph is represented as an
arena (`Grammar.nodes`) with stable integer handles, exactly as the
spec's design notes prescribe ("represent nodes as entries in an arena
with stable identity (index- or handle-based)"); a cycle is a handle
that reaches itself.  `byte` matches one exact byte value, `byteRange`
an inclusive range, `join` the ordered concatenation of its children
(zero children match the empty string), `select` any one alternative
in priority order, `capture` wraps an inner node under a name, and
`placeholder` is the unresolved forward reference. -/
inductive GNode where
  | byte (b : Nat)
  | byteRange (lo hi : Nat)
  | join (children : List Nat)
  | select (values : List Nat)
  | capture (cname : String) (inner : Nat)
  | placeholder
deriving DecidableEq, Repr

/-- Modelled from the spec: a grammar is the arena of nodes together
with the handle of the root node. -/
structure Grammar where
  nodes : List GNode
  root : Nat
deriving DecidableEq, Repr

namespace Grammar

/-- Handle lookup in the arena; out-of-range handles read as the empty
join (never produced by well-formed construction). -/
def get (g : Grammar) (h : Nat) : GNode :=
  g.nodes.getD h (GNode.join [])

/-- Whether a handle denotes a terminal (a `byte` or `byteRange`). -/
def isTerminal (g : Grammar) (h : Nat) : Bool :=
  match g.get h with
  | GNode.byte _ => true
  | GNode.byteRange _ _ => true
  | _ => false

end Grammar

/-- Whether a terminal node accepts the byte value `v`:  a `byte`
matches exactly its value, a `byteRange` matches the inclusive range;
no other node accepts a byte directly. -/
def acceptsByte (n : GNode) (v : Nat) : Bool :=
  match n with
  | GNode.byte b => v == b
  | GNode.byteRange lo hi => lo ≤ v && v ≤ hi
  | _ => false

/-! ## Nullability analysis (spec section 4.1)

Modelled from the spec: a node is nullable iff `Byte`/`ByteRange` →
never; `Join` → all children nullable (the empty `Join` is nullable);
`Select` → at least one alternative nullable; `Capture` → inner
nullable.  Because the graph may be cyclic, nullability is a least
fixed point computed by iterating a propagation step from the
all-false bottom until it stabilises; the number of nodes bounds the
number of useful iterations. -/

/-- One node's nullability in terms of the current vector `v`
(indexed by handle). -/
def nodeNull (v : List Bool) (n : GNode) : Bool :=
  match n with
  | GNode.byte _ => false
  | GNode.byteRange _ _ => false
  | GNode.join cs => cs.all fun c => v.getD c false
  | GNode.select vs => vs.any fun c => v.getD c false
  | GNode.capture _ c => v.getD c false
  | GNode.placeholder => false

/-- One propagation step of the nullability fixed-point iteration:
recompute every node's provisional nullability from the current
vector. -/
def nullStep (g : Grammar) (v : List Bool) : List Bool :=
  g.nodes.map (nodeNull v)

/-- The nullability vector: the propagation step iterated (number of
nodes + 1) times from the all-false bottom, which reaches the least
fixed point (proved below). -/
def nullVec (g : Grammar) : List Bool :=
  (nullStep g)^[g.nodes.length + 1] (List.replicate g.nodes.length false)

/-- Modelled from the spec: the memoized `nullable` property of the
node with handle `h`. -/
def nullable (g : Grammar) (h : Nat) : Bool :=
  (nullVec g).getD h false

/-- The least-fixed-point specification of nullability, as an
inductive predicate (an inductive predicate in Lean *is* the least
fixed point of its rules).  These rules are the spec's: a `Join` is
nullable iff all children are (vacuously for the empty join), a
`Select` iff some alternative is, a `Capture` iff its inner node is;
terminals and placeholders never. -/
inductive NullableSpec (g : Grammar) : Nat → Prop where
  | join (h : Nat) (cs : List Nat) :
      g.get h = GNode.join cs → (∀ c ∈ cs, NullableSpec g c) → h < g.nodes.length →
      NullableSpec g h
  | select (h : Nat) (vs : List Nat) (c : Nat) :
      g.get h = GNode.select vs → c ∈ vs → NullableSpec g c → h < g.nodes.length →
      NullableSpec g h
  | capture (h : Nat) (nm : String) (c : Nat) :
      g.get h = GNode.capture nm c → NullableSpec g c → h < g.nodes.length →
      NullableSpec g h

/-! ## Commit Parser state (spec section 3, "Commit Parser State", and 4.2) -/

/-- Modelled from the spec: a parse item identifies a grammar node, the
ordered sequence of child handles it is matching (`values`: for a
`Join` its children, for a `Select` the single chosen alternative, for
a `Capture` its inner node), the progress `pos` within that sequence,
and the chart column `start` at which the match began (its origin).
Items are equal iff node, progress and origin data all match; this
underlies ambiguity de-duplication. -/
structure Item where
  node : Nat
  values : List Nat
  pos : Nat
  start : Nat
deriving DecidableEq, Repr

/-- Advance an item one step past its next expected element. -/
def advanceItem (it : Item) : Item :=
  { it with pos := it.pos + 1 }

/-- The handle the item expects next, or `none` if the item is
complete. -/
def nextSym (it : Item) : Option Nat :=
  it.values.get? it.pos

/-- Whether an item is complete (its node has fully matched). -/
def Item.isComplete (it : Item) : Bool :=
  it.pos == it.values.length

/-- One chart column: the set of parse items reachable at one byte
position (position 0 is before any byte). -/
abbrev Column := List Item

/-- Modelled from the spec: the prediction step of closure.  Expanding
a non-terminal handle `h` at origin column `k` yields one item per
`Select` alternative, one item for the child sequence of a `Join`, and
one item for the inner node of a `Capture`; terminals and placeholders
expand to nothing. -/
def predictions (g : Grammar) (h k : Nat) : List Item :=
  match g.get h with
  | GNode.select vs => vs.map fun alt => ⟨h, [alt], 0, k⟩
  | GNode.join cs => [⟨h, cs, 0, k⟩]
  | GNode.capture _ c => [⟨h, [c], 0, k⟩]
  | _ => []

/-- Fuel bound for the closure work-list, a function of the grammar
only (the set of distinct item shapes is determined by the grammar, so
a per-grammar polynomial bound dominates the work-list length). -/
def closureFuel (g : Grammar) : Nat :=
  (g.nodes.foldl
      (fun a n =>
        a + match n with
        | GNode.select vs => 2 * vs.length + 2
        | GNode.join cs => cs.length + 2
        | GNode.capture _ _ => 3
        | _ => 1)
      8) ^ 2

/-- Modelled from the spec: the closure routine building chart column
`k`.  A work-list (`queue`) is processed against the set of items
already added (`cur`), de-duplicating on item equality — this is the
per-call "currently expanding" guard that makes nullable
self-referential nodes expand at most once per origin.  An incomplete
item whose next element is a non-terminal is expanded via
`predictions`; when that next element is a nullable node the item is
additionally advanced at once (the empty match is always available,
which is what keeps same-column completion of nullable cycles sound).
A complete item triggers the Earley completer: every item of the
origin column waiting on the completed node is advanced into the
current column.  `cols` holds the already-frozen columns `0..k-1`.
Fuel exhaustion returns `none` (never reached in practice; the bound
is generous). -/
def waitersFor (nd : Nat) (parentCol : Column) : List Item :=
  parentCol.filterMap fun p =>
    match nextSym p with
    | some h => if h == nd then some (advanceItem p) else none
    | none => none

/-- The closure work-list loop; see the comment above `waitersFor`
(the completer advances the waiters of the origin column of each
completed item). -/
def closure (g : Grammar) (cols : List Column) (k : Nat) :
    Nat → Column → List Item → Option Column
  | 0, _, _ => none
  | _ + 1, cur, [] => some cur
  | fuel + 1, cur, it :: queue =>
    if it ∈ cur then closure g cols k fuel cur queue
    else
      match nextSym it with
      | none =>
        closure g cols k fuel (cur ++ [it])
          (queue ++ waitersFor it.node
            (if it.start == k then cur ++ [it] else cols.getD it.start []))
      | some h =>
        if g.isTerminal h then closure g cols k fuel (cur ++ [it]) queue
        else
          closure g cols k fuel (cur ++ [it])
            (queue ++ predictions g h k ++
              (if nullable g h then [advanceItem it] else []))

/-- The capture nodes of a grammar: handle and capture name pairs, in
arena order. -/
def captureEntries (g : Grammar) : List (Nat × String) :=
  g.nodes.enum.filterMap fun p =>
    match p.2 with
    | GNode.capture nm _ => some (p.1, nm)
    | _ => none

/-- Modelled from the spec: the Commit Parser state.  It owns the
chart (`cols`, one column per byte position consumed so far), the
consumed bytes, and the two capture-pass invocation counters: the
from-root pass runs once per consumed byte when the root has a
completed match at the new position, the partial pass runs once per
consumed byte otherwise.  (The capture table itself is the pure
function of the chart computed by whichever pass ran last; it is
recomputed on demand in `getCaptures` below.) -/
structure PState where
  g : Grammar
  cols : List Column
  bytes : List Nat
  fromRootCount : Nat
  provisionalCount : Nat
deriving DecidableEq

/-- Modelled from the spec: the "no viable continuation" failure
carries the rejected byte value and the byte offset at which rejection
occurred; `fuelOut` is the (never exercised) fuel-exhaustion marker of
the bounded closure. -/
inductive PError where
  | noViable (b : Nat) (pos : Nat)
  | fuelOut
deriving DecidableEq, Repr

/-- Whether a column contains an item representing a full match of the
root: the root node, complete, with origin 0. -/
def rootCompleteCol (g : Grammar) (col : Column) : Bool :=
  col.any fun it => it.node == g.root && it.isComplete && it.start == 0

/-- Modelled from the spec: parser construction.  A terminal root is
wrapped in a singleton `Join`; chart column 0 is initialized by
closing over the root at position 0. -/
def initState (g0 : Grammar) : Except PError PState :=
  let g := if g0.isTerminal g0.root then
    ⟨g0.nodes ++ [GNode.join [g0.root]], g0.nodes.length⟩ else g0
  match closure g [] 0 (closureFuel g) [] (predictions g g.root 0) with
  | none => Except.error PError.fuelOut
  | some col0 => Except.ok ⟨g, [col0], [], 0, 0⟩

/-- The current (last) chart column. -/
def lastCol (st : PState) : Column :=
  st.cols.getD st.bytes.length []

/-- Whether the whole parse is in a completed state at the current
position. -/
def rootComplete (st : PState) : Bool :=
  rootCompleteCol st.g (lastCol st)

/-- Modelled from the spec: `consume_byte`.  Every active item of the
last column whose next expected atom is a terminal accepting `b` is
advanced into a new column, which is then closed; if no item accepts
`b` the call fails with the "no viable continuation" condition
identifying the offending byte and the current position.  The
capture-pass counters record which extraction pass this byte
triggered. -/
def scanColumn (g : Grammar) (col : Column) (b : Nat) : List Item :=
  col.filterMap fun it =>
    match nextSym it with
    | some h => if acceptsByte (g.get h) b then some (advanceItem it) else none
    | none => none

/-- See the comment above `scanColumn`: advance the accepting items of
the last column into a new closed column, or fail. -/
def consumeByte (st : PState) (b : Nat) : Except PError PState :=
  if (scanColumn st.g (lastCol st) b).isEmpty then
    Except.error (PError.noViable b st.bytes.length)
  else
    match closure st.g st.cols (st.bytes.length + 1) (closureFuel st.g) []
        (scanColumn st.g (lastCol st) b) with
    | none => Except.error PError.fuelOut
    | some newCol =>
      if rootCompleteCol st.g newCol then
        Except.ok { st with cols := st.cols ++ [newCol], bytes := st.bytes ++ [b],
                            fromRootCount := st.fromRootCount + 1 }
      else
        Except.ok { st with cols := st.cols ++ [newCol], bytes := st.bytes ++ [b],
                            provisionalCount := st.provisionalCount + 1 }

/-- Consume a byte string in order. -/
def consumeBytes (st : PState) : List Nat → Except PError PState
  | [] => Except.ok st
  | b :: bs => (consumeByte st b).bind fun st' => consumeBytes st' bs

/-! ## Valid-next-byte queries (spec section 4.2) -/

/-- Modelled from the spec: `valid_next_bytes` scans the current
column's active items; for each item whose next expected atom is a
`Byte` or `ByteRange`, that terminal node joins the result (set
semantics — callers test membership / range containment). -/
def expectedTerminals (g : Grammar) (col : Column) : List GNode :=
  col.foldl
    (fun acc it =>
      match nextSym it with
      | some h =>
        match g.get h with
        | GNode.byte b => acc ++ [GNode.byte b]
        | GNode.byteRange lo hi => acc ++ [GNode.byteRange lo hi]
        | _ => acc
      | none => acc)
    []

/-- `valid_next_bytes()` on the parser state. -/
def validNextBytes (st : PState) : List GNode :=
  expectedTerminals st.g (lastCol st)

/-- Accumulate one expected terminal into the byte mask: a `byte`
sets its slot, a `byteRange` sets every slot of the inclusive
range. -/
def maskAcc (m : List Bool) (t : GNode) : List Bool :=
  match t with
  | GNode.byte b => m.set b true
  | GNode.byteRange lo hi =>
    (List.range' lo (hi + 1 - lo)).foldl (fun m' v => m'.set v true) m
  | _ => m

/-- Modelled from the spec: `next_byte_mask`, the 256-slot boolean
vector materialisation of the same traversal: entry `v` is set for
every byte value accepted by some expected terminal, in time
proportional to the number of active items. -/
def nextByteMask (g : Grammar) (col : Column) : List Bool :=
  (expectedTerminals g col).foldl maskAcc (List.replicate 256 false)

/-! ## Parse-tree reconstruction and captures (spec section 4.2) -/

/-- One concrete derivation: a terminal leaf or an inner node, each
annotated with the byte span `[i, j)` it matched. -/
inductive DTree where
  | term (h : Nat) (i j : Nat)
  | node (h : Nat) (i j : Nat) (children : List DTree)

/-- Whether the chart holds a completed item for node `c` spanning
columns `i` to `j`. -/
def completedAt (cols : List Column) (c i j : Nat) : Bool :=
  (cols.getD j []).any fun it => it.node == c && it.isComplete && it.start == i

/-- Byte span `[i, j)` of the consumed bytes. -/
def slice (bytes : List Nat) (i j : Nat) : List Nat :=
  (bytes.drop i).take (j - i)

/-- A pending reconstruction step: derive one node over a span, or a
sequence of children over a span. -/
inductive DTask where
  | one (c i j : Nat)
  | seq (cs : List Nat) (i j : Nat)

/-- The result of a reconstruction step. -/
inductive DRes where
  | one (t : DTree)
  | seq (ts : List DTree)

/-- Modelled from the spec: the engine of `parse_tree`
reconstruction.  A `one` task derives node `c` over span `[i, j)`
consistently with the chart: inner nodes descend only through spans
the completed sets of the chart witness, `Select` alternatives are
tried in declaration order (the tie-break), and the `seen` path set of
`(node, i, j)` triples is the cycle guard that terminates nullable
self-reference (the same discipline as closure).  A `seq` task splits
a span over a child sequence, searching split points in increasing
order with full backtracking.  The recursion is purely fuel-indexed,
with fuel bounding the derivation depth. -/
def deriveF (g : Grammar) (cols : List Column) (bytes : List Nat) :
    Nat → List (Nat × Nat × Nat) → DTask → Option DRes
  | 0, _, _ => none
  | fuel + 1, seen, DTask.one c i j =>
    if (c, i, j) ∈ seen then none
    else
      match g.get c with
      | GNode.byte b =>
        if j == i + 1 && bytes.getD i 0 == b then some (DRes.one (DTree.term c i j))
        else none
      | GNode.byteRange lo hi =>
        if j == i + 1 && lo ≤ bytes.getD i 0 && bytes.getD i 0 ≤ hi then
          some (DRes.one (DTree.term c i j))
        else none
      | GNode.join cs =>
        if completedAt cols c i j then
          (deriveF g cols bytes fuel ((c, i, j) :: seen) (DTask.seq cs i j)).bind
            fun r =>
              match r with
              | DRes.seq ts => some (DRes.one (DTree.node c i j ts))
              | DRes.one _ => none
        else none
      | GNode.select vs =>
        if completedAt cols c i j then
          vs.findSome? fun alt =>
            (deriveF g cols bytes fuel ((c, i, j) :: seen) (DTask.one alt i j)).bind
              fun r =>
                match r with
                | DRes.one t => some (DRes.one (DTree.node c i j [t]))
                | DRes.seq _ => none
        else none
      | GNode.capture _ inner =>
        if completedAt cols c i j then
          (deriveF g cols bytes fuel ((c, i, j) :: seen) (DTask.one inner i j)).bind
            fun r =>
              match r with
              | DRes.one t => some (DRes.one (DTree.node c i j [t]))
              | DRes.seq _ => none
        else none
      | GNode.placeholder => none
  | _ + 1, _, DTask.seq [] i j => if i == j then some (DRes.seq []) else none
  | fuel + 1, seen, DTask.seq (c :: rest) i j =>
    (List.range' i (j - i + 1)).findSome? fun m =>
      (deriveF g cols bytes fuel seen (DTask.one c i m)).bind fun r1 =>
        match r1 with
        | DRes.one t =>
          (deriveF g cols bytes fuel seen (DTask.seq rest m j)).bind fun r2 =>
            match r2 with
            | DRes.seq ts => some (DRes.seq (t :: ts))
            | DRes.one _ => none
        | DRes.seq _ => none

/-- Derive one node over a span (the `one`-task entry point). -/
def derive (g : Grammar) (cols : List Column) (bytes : List Nat)
    (fuel : Nat) (seen : List (Nat × Nat × Nat)) (c i j : Nat) : Option DTree :=
  match deriveF g cols bytes fuel seen (DTask.one c i j) with
  | some (DRes.one t) => some t
  | _ => none

/-- Derivation-depth fuel: generous in the grammar size and input
length. -/
def treeFuel (g : Grammar) (bytes : List Nat) : Nat :=
  (g.nodes.length + 2) * (bytes.length + 4)

/-- Modelled from the spec: `parse_tree()` — one concrete derivation
of the root over all consumed bytes (the best completed derivation
from the start symbol). -/
def parseTree (st : PState) : Option DTree :=
  derive st.g st.cols st.bytes (treeFuel st.g st.bytes) [] st.g.root 0 st.bytes.length

/-- Update the entry of capture name `nm` in a capture table. -/
def setCap (tbl : List (String × List Nat)) (nm : String) (v : List Nat) :
    List (String × List Nat) :=
  tbl.map fun p => if p.1 == nm then (nm, v) else p

/-- The initial capture table: one (empty) entry for every capture
name present anywhere in the grammar. -/
def initTable (g : Grammar) : List (String × List Nat) :=
  (captureEntries g).map fun e => (e.2, ([] : List Nat))

/-- The post-order sequence of `(capture name, matched span)` pairs of
a derivation forest: for each tree, the records of its children come
first, then — when the node is a `Capture` — its own exact span.
Fuel-indexed so that it evaluates definitionally; fuel bounds the
forest depth. -/
def capRecords (g : Grammar) (bytes : List Nat) :
    Nat → List DTree → List (String × List Nat)
  | 0, _ => []
  | _ + 1, [] => []
  | fuel + 1, t :: rest =>
    (match t with
      | DTree.term _ _ _ => []
      | DTree.node h i j children =>
        capRecords g bytes fuel children ++
          (match g.get h with
            | GNode.capture nm _ => [(nm, slice bytes i j)]
            | _ => [])) ++
      capRecords g bytes fuel rest

/-- Modelled from the spec: the from-root capture pass walks the best
derivation downward and assigns the exact matched byte span to every
`Capture` node encountered; children are recorded before their parent,
so of several rounds of the same name the latest (rightmost) wins
while an enclosing capture keeps its full span. -/
def recordTree (g : Grammar) (bytes : List Nat) (fuel : Nat) (t : DTree)
    (tbl : List (String × List Nat)) : List (String × List Nat) :=
  (capRecords g bytes fuel [t]).foldl (fun tb p => setCap tb p.1 p.2) tbl

/-- Modelled from the spec: the partial pass assigns to a `Capture`
node not yet reachable from a completed root derivation the longest
known prefix consistent with the chart so far (possibly the empty
span): among the chart items for the capture node the latest-started
instance is chosen, and within it the furthest progress. -/
def provisionalSpan (cols : List Column) (bytes : List Nat)
    (c : Nat) : List Nat :=
  let cand := cols.enum.flatMap fun p =>
    p.2.filterMap fun it => if it.node == c then some (it.start, p.1) else none
  match cand.foldl
      (fun acc (se : Nat × Nat) =>
        match acc with
        | none => some se
        | some (s0, e0) =>
          if s0 < se.1 || (s0 == se.1 && e0 < se.2) then some se else acc)
      none with
  | none => []
  | some (s, e) => slice bytes s e

/-- The partial capture pass over every capture name in the grammar. -/
def recordProvisional (g : Grammar) (cols : List Column) (bytes : List Nat)
    (tbl : List (String × List Nat)) : List (String × List Nat) :=
  (captureEntries g).foldl
    (fun t e => setCap t e.2 (provisionalSpan cols bytes e.1)) tbl

/-- Modelled from the spec: `get_captures()` returns the capture table
together with the flag telling whether the overall parse is already
fully settled.  The table is the one computed by whichever extraction
pass the last consumed byte triggered: the from-root pass when the
root has a completed match at the current position, the partial pass
otherwise. -/
def getCaptures (st : PState) : List (String × List Nat) × Bool :=
  if rootComplete st then
    match parseTree st with
    | some t =>
      (recordTree st.g st.bytes (treeFuel st.g st.bytes) t (initTable st.g), true)
    | none => (initTable st.g, true)
  else
    (recordProvisional st.g st.cols st.bytes (initTable st.g), false)

/-! ## Match/Validate facade (spec section 4.3) -/

/-- Modelled from the spec: the result of `match`.  `openEnded` models
the result's `.partial` flag: true iff the consumed bytes form a valid
prefix but no item in the final column represents a full match of the
root; `failed` models the invalid-flagged result returned when
`raise_exceptions` is false and a byte was rejected. -/
structure MatchResult where
  openEnded : Bool
  failed : Bool
deriving DecidableEq, Repr

/-- Modelled from the spec: `match(bytes, raise_exceptions=True)`
builds a fresh parser over the grammar, consumes each byte in order,
and fails with the structured "no viable continuation" error on
rejection; on success `.partial` is the root-completion test on the
final column. -/
def matchRaise (g : Grammar) (bs : List Nat) : Except PError MatchResult :=
  (initState g).bind fun st =>
    (consumeBytes st bs).map fun st' =>
      { openEnded := !rootComplete st', failed := false }

/-- Modelled from the spec: `match(bytes, raise_exceptions=False)`
returns a result flagged invalid instead of raising on a rejected
byte.  (`none` only on fuel exhaustion of the bounded closure, which
no grammar in this development reaches.) -/
def matchNoRaise (g : Grammar) (bs : List Nat) : Option MatchResult :=
  match matchRaise g bs with
  | Except.ok r => some r
  | Except.error (PError.noViable _ _) => some { openEnded := false, failed := true }
  | Except.error PError.fuelOut => none

/-! ## The concrete grammars of the testable properties

Byte values: `a` = 97, `b` = 98, `x` = 120, `y` = 121, `z` = 122.
The arenas are written out literally; each records the builder calls
of the tests it models. -/

/-- `A -> A | ε` of `test_no_infinite_loop`: `A = Select([],
recursive=True); A.values = [A, ""]`.  Handle 0 is the empty join
(the empty string), handle 1 the self-referential select. -/
def gLoop1 : Grammar :=
  ⟨[GNode.join [], GNode.select [1, 0]], 1⟩

/-- `A -> A B | ε, B -> x | ε` of `test_no_infinite_loop_with_terminal`:
`B = select(["x", ""]); A = select([B, ""], recurse=True)`.  Modelled
from the spec: a recursive select puts its plain options first and
appends, for each non-empty option `v`, the self-referential
continuation `A + v`.  0: byte x; 1: ε; 2: B; 3: A + B; 4: A. -/
def gLoop2 : Grammar :=
  ⟨[GNode.byte 120, GNode.join [], GNode.select [0, 1],
    GNode.join [4, 2], GNode.select [2, 1, 3]], 4⟩

/-- `A -> A C | B | ε, B -> A, C -> x` of
`test_no_infinite_loop_extra_indirection` (also the mutated-cycle
example of the nullability claim): `C = Join(["x"]); B = Select([""]);
A = Select([""]); B.values = [A]; A.values = [A + C, B, ""]`.  The
arena holds the post-mutation graph.  0: byte x; 1: C = join [x];
2: ε; 3: A + C; 4: A; 5: B. -/
def gLoop3 : Grammar :=
  ⟨[GNode.byte 120, GNode.join [0], GNode.join [],
    GNode.join [4, 1], GNode.select [3, 5, 2], GNode.select [4]], 4⟩

/-- The capture grammar of `test_captures_from_root`:
`B = select(["x", "y", ""], name="B"); A = select([B, ""],
recurse=True, name="A")`.  A named select is the capture wrapper
around the plain select; the recursion references the inner select.
0: byte x; 1: byte y; 2: ε; 3: B's select; 4: capture "B";
5: A's select; 6: A + B; 7: capture "A" (the root). -/
def gCaps : Grammar :=
  ⟨[GNode.byte 120, GNode.byte 121, GNode.join [],
    GNode.select [0, 1, 2], GNode.capture ("B") 3,
    GNode.select [4, 2, 6], GNode.join [5, 4],
    GNode.capture ("A") 5], 7⟩

/-- The partial-capture grammar of `test_partial_captures`: the same
`A`/`B` with a literal `"z"` suffix, `C = A + "z"`.  8: byte z;
9: C = join [A, z] (the root). -/
def gCapsZ : Grammar :=
  ⟨[GNode.byte 120, GNode.byte 121, GNode.join [],
    GNode.select [0, 1, 2], GNode.capture ("B") 3,
    GNode.select [4, 2, 6], GNode.join [5, 4],
    GNode.capture ("A") 5, GNode.byte 122, GNode.join [7, 8]], 9⟩

/-- `zero_or_more("a") + one_or_more("b")` of
`test_zero_or_more_and_one_or_more`.  Modelled from the spec:
`zero_or_more(v) = select(["", v], recurse=True)` and
`one_or_more(v) = select([v], recurse=True)`, both cycles through a
recursive select.  0: byte a; 1: byte b; 2: ε; 3: S0 + a;
4: S0 = select [ε, a, S0 + a]; 5: S1 + b; 6: S1 = select [b, S1 + b];
7: root join [S0, S1]. -/
def gZeroOne : Grammar :=
  ⟨[GNode.byte 97, GNode.byte 98, GNode.join [],
    GNode.join [4, 0], GNode.select [2, 0, 3],
    GNode.join [6, 1], GNode.select [1, 5],
    GNode.join [4, 6]], 7⟩

/-- An integer-only grammar as produced for the schema
`{ "type": "integer" }`: an optional minus sign, one digit, then more
digits.  0: byte '-' (45); 1: ε; 2: optional minus; 3: digit range
48-57; 4: D0 + digit; 5: D0 = zero-or-more digits; 6: root join. -/
def gInt : Grammar :=
  ⟨[GNode.byte 45, GNode.join [], GNode.select [0, 1],
    GNode.byteRange 48 57, GNode.join [5, 3],
    GNode.select [1, 3, 4], GNode.join [2, 3, 5]], 6⟩

/-- A grammar-conformant JSON object string as a literal grammar: the
byte sequence of the compact object `{"a":1}` (123, 34, 97, 34, 58,
49, 125), joined in order. -/
def gObj : Grammar :=
  ⟨[GNode.byte 123, GNode.byte 34, GNode.byte 97, GNode.byte 34,
    GNode.byte 58, GNode.byte 49, GNode.byte 125,
    GNode.join [0, 1, 2, 3, 4, 5, 6]], 7⟩

/-! ## Helper runners for the concrete claims -/

/-- Build a parser over `g` and feed it `bs`; `none` on rejection or
fuel exhaustion. -/
def runOn (g : Grammar) (bs : List Nat) : Option PState :=
  match initState g with
  | Except.ok st => (consumeBytes st bs).toOption
  | Except.error _ => none

/-- Construct the parser and immediately reconstruct the parse tree
(the scenario of the recursive-nullable-grammar tests). -/
def parseTreeOf (g : Grammar) : Option DTree :=
  (runOn g []).bind parseTree

/-- A throwaway parser state, used only to spell out concrete
instantiations of quantified theorems. -/
def pstateDefault : PState :=
  ⟨⟨[], 0⟩, [], [], 0, 0⟩

/-- The hypothesis of the rejection claim: no active item of the
current column accepts byte `b`. -/
def noAcceptingItem (st : PState) (b : Nat) : Bool :=
  (lastCol st).all fun it =>
    match nextSym it with
    | some h => !acceptsByte (st.g.get h) b
    | none => true

/-! ## Origin-renaming simulation (used for the unbounded-repetition
claim)

A parser state is invariant, up to a strictly monotone renaming of
chart-column indices, under pumping a repeated section of the input:
`mapItem σ` renames the origin column of an item, and `SimRel σ s t`
says state `t` is state `s` with columns re-indexed along `σ`
(columns of `t` outside the image of `σ` are never consulted, because
every item origin in play is in the image). -/

/-- Rename an item's origin column. -/
def mapItem (σ : Nat → Nat) (it : Item) : Item :=
  { it with start := σ it.start }

/-- Extend a column renaming defined on `0..p` so that position `p+1`
maps to `σ p + 1` and strict monotonicity is kept. -/
def extendFrom (σ : Nat → Nat) (p : Nat) : Nat → Nat :=
  fun k => if k ≤ p then σ k else k - p + σ p

/-- The column renaming that fixes columns up to the cutoff `c` and
shifts later columns by `d` (the pumped repetition length). -/
def sigCut (c d : Nat) : Nat → Nat :=
  fun k => if k ≤ c then k else k + d

/-- The parser state of the repetition grammar `gZeroOne` after the
given bytes (junk when the bytes are rejected, which never happens for
the words considered). -/
def zoState (bs : List Nat) : PState :=
  (runOn gZeroOne bs).getD pstateDefault

/-- State `t` simulates state `s` with chart columns renamed along
`σ`. -/
structure SimRel (σ : Nat → Nat) (s t : PState) : Prop where
  geq : t.g = s.g
  blen : t.bytes.length = σ s.bytes.length
  szero : σ 0 = 0
  mono : StrictMono σ
  clen : s.cols.length = s.bytes.length + 1
  clen' : t.cols.length = t.bytes.length + 1
  crel : ∀ k, k ≤ s.bytes.length →
    t.cols.getD (σ k) [] = (s.cols.getD k []).map (mapItem σ)
  starts : ∀ k, k ≤ s.bytes.length → ∀ it ∈ s.cols.getD k [], it.start ≤ k

/-! ## The `guidance` decorator placeholder protocol
(`src/guidance/_guidance.py`, `wrapped`, lines 166-197)

The stateless path of `wrapped` is translated here over the arena
node graph.  The Python function `f` being wrapped is abstracted as
`body : Option Nat → List GNode → Nat × List GNode`: its first
argument is the value of the `_self_call_placeholder_` attribute at
call time, i.e. what a recursive self-call of the wrapped function
returns when a placeholder is installed (`some p`) and the marker that
a self-call re-invokes `f` directly when none is (`none`); `body`
returns the handle of the node it built and the extended arena.
`replace_grammar_node(node, placeholder, node)` is the full-graph
substitution of the placeholder handle (spec section 9: "a resolution
pass performs a full-graph substitution replacing every reference to
the placeholder handle with the real handle").  The diagnostic
`node.name = f.__name__` assignment has no handle-level effect and is
not modelled. -/

/-- Substitute handle `old` by `new`. -/
def substH (old new c : Nat) : Nat :=
  if c = old then new else c

/-- Substitute handle `old` by `new` in one node's child references. -/
def replaceNode (old new : Nat) : GNode → GNode
  | GNode.join cs => GNode.join (cs.map (substH old new))
  | GNode.select vs => GNode.select (vs.map (substH old new))
  | GNode.capture nm c => GNode.capture nm (substH old new c)
  | n => n

/-- `replace_grammar_node`: substitute throughout the node graph. -/
def replaceGrammarNode (nodes : List GNode) (old new : Nat) : List GNode :=
  nodes.map (replaceNode old new)

/-- The child handles referenced by a node. -/
def childHandles : GNode → List Nat
  | GNode.join cs => cs
  | GNode.select vs => vs
  | GNode.capture _ c => [c]
  | _ => []

/-- Whether any node of the graph references handle `p`. -/
def referencesHandle (nodes : List GNode) (p : Nat) : Bool :=
  nodes.any fun n => (childHandles n).contains p

/-- The stateless path of `wrapped` (`_guidance.py` lines 174-197):
if the `_self_call_placeholder_` attribute (`attr`) is set we are in a
recursive definition, so the placeholder is returned at once;
otherwise with zero arguments a fresh `Placeholder` arena entry is
installed as the attribute, `f` is called, every occurrence of the
placeholder is replaced by the generated node, and the attribute is
deleted (`none` in the result); with one or more arguments no
placeholder is installed and `f` is called with the attribute still
unset. -/
def wrapped (body : Option Nat → List GNode → Nat × List GNode)
    (nargs : Nat) (attr : Option Nat) (arena : List GNode) :
    Nat × Option Nat × List GNode :=
  match attr with
  | some p => (p, some p, arena)
  | none =>
    if nargs == 0 then
      let p := arena.length
      let r := body (some p) (arena ++ [GNode.placeholder])
      (r.1, none, replaceGrammarNode r.2 p r.1)
    else
      let r := body none arena
      (r.1, none, r.2)

/-- A concrete recursively-defined grammar function used to
instantiate the decorator theorems: its body returns a select between
the self-call result and the empty string. -/
def bodyEx (selfh : Option Nat) (ar : List GNode) : Nat × List GNode :=
  match selfh with
  | some p => (ar.length + 1, ar ++ [GNode.join [], GNode.select [p, ar.length]])
  | none => (ar.length, ar ++ [GNode.join []])

/-! ## The regex-to-grammar transformer dispatch
(`src/guidance/library/_regex.py`, `Transformer.transform`)

The parsed regex tree (`re._parser.SubPattern` / opcode-args pairs) is
embedded as `RTree`: one constructor per opcode that has a handler
method on `Transformer`, plus `other` for every opcode without one
(the string-keyed `getattr` dispatch of the source becomes a closed
match).  `transform` threads the arena through the handlers and
returns `TError` values exactly where the source raises
`NotImplementedError`. -/

/-- The `high` bound of a `MAX_REPEAT`: a plain integer, the
`MAXREPEAT` named constant, or any other named constant. -/
inductive RHigh where
  | num (n : Nat)
  | maxrepeat
  | named (s : String)
deriving DecidableEq

/-- The parsed regex tree. -/
inductive RTree where
  | subPat (data : List RTree)
  | literal (c : Nat)
  | notLiteral (c : Nat)
  | range (lo hi : Nat)
  | anyChar
  | inSet (neg : Bool) (items : List RTree)
  | branch (firstArg : Option Nat) (alts : List RTree)
  | maxRepeat (low : Nat) (high : RHigh) (arg : RTree)
  | subpattern (grpno flags unknown : Nat) (arg : RTree)
  | category (cat : String)
  | other (opcode : String)

/-- The `NotImplementedError` conditions of the transformer. -/
inductive TError where
  | flagsNotImplemented
  | opcodeNotImplemented (name : String)
  | subpatternUnknown
  | maxRepeatHigh (s : String)
  | categoryNotImplemented (s : String)
  | negationNotImplemented
  | branchFirstArg
deriving DecidableEq

/-- Add one node to the arena, returning its handle. -/
def pushNode (ar : List GNode) (n : GNode) : Nat × List GNode :=
  (ar.length, ar ++ [n])

/-- `any_char_but`: a select over every byte value except the
excluded ones (the helper module is not part of the excerpt; modelled
as the byte-complement select it produces). -/
def anyCharBut (excl : List Nat) (ar : List GNode) : Nat × List GNode :=
  let bytes := (List.range 256).filter fun b => !excl.contains b
  let handles := (List.range bytes.length).map fun i => ar.length + i
  let ar1 := ar ++ bytes.map GNode.byte
  pushNode ar1 (GNode.select handles)

/-- `zero_or_more(v)`: the recursive select `S -> ε | v | S v`
(`select(["", v], recurse=True)`). -/
def zeroOrMore (v : Nat) (ar : List GNode) : Nat × List GNode :=
  let eps := ar.length
  let sel := ar.length + 1
  let rec_ := ar.length + 2
  (sel, ar ++ [GNode.join [], GNode.select [eps, v, rec_], GNode.join [sel, v]])

/-- `optional(v)`: `select([v, ""])`. -/
def optionalNode (v : Nat) (ar : List GNode) : Nat × List GNode :=
  let eps := ar.length
  (ar.length + 1, ar ++ [GNode.join [], GNode.select [v, eps]])

/-- `_get_negated_bytes` over built grammar values: bytes and byte
ranges expand to byte lists, a select recurses into its values, and
any other node type raises `NotImplementedError`.  Fuel bounds the
recursion (the freshly built class sets are acyclic). -/
def negatedBytes (ar : List GNode) : Nat → List Nat → Except TError (List Nat)
  | 0, _ => Except.error TError.negationNotImplemented
  | _ + 1, [] => Except.ok []
  | fuel + 1, h :: hs =>
    match (Grammar.mk ar 0).get h with
    | GNode.byte b =>
      (negatedBytes ar (fuel + 1) hs).map fun r => b :: r
    | GNode.byteRange lo hi =>
      (negatedBytes ar (fuel + 1) hs).map fun r => List.range' lo (hi + 1 - lo) ++ r
    | GNode.select vs =>
      (negatedBytes ar fuel vs).bind fun r1 =>
        (negatedBytes ar (fuel + 1) hs).map fun r2 => r1 ++ r2
    | _ => Except.error TError.negationNotImplemented
termination_by fuel hs => (fuel, hs.length)

mutual

/-- `Transformer.transform` (`_regex.py` lines 27-44 and the handler
methods): non-zero flags raise `NotImplementedError`; a `SubPattern`
of length one is transformed transparently and a longer one becomes a
`Join`; an opcode node dispatches to its handler, and an opcode
without a handler raises `NotImplementedError`.  The handlers mirror
`SUBPATTERN`, `LITERAL`, `NOT_LITERAL`, `RANGE`, `ANY`, `IN`,
`BRANCH`, `MAX_REPEAT` and `CATEGORY` (the categories build their
character classes directly rather than re-parsing a pattern
string). -/
def transform (t : RTree) (flags : Nat) (ar : List GNode) :
    Except TError (Nat × List GNode) :=
  if flags ≠ 0 then Except.error TError.flagsNotImplemented
  else
    match t with
    | RTree.subPat [d] => transform d 0 ar
    | RTree.subPat data =>
      (transformList data ar).map fun r =>
        pushNode r.2 (GNode.join r.1)
    | RTree.literal c => Except.ok (pushNode ar (GNode.byte c))
    | RTree.notLiteral c => Except.ok (anyCharBut [c] ar)
    | RTree.range lo hi => Except.ok (pushNode ar (GNode.byteRange lo hi))
    | RTree.anyChar => Except.ok (anyCharBut [10] ar)
    | RTree.inSet neg items =>
      (transformList items ar).bind fun r =>
        if neg then
          (negatedBytes r.2 (r.2.length + 1) r.1).map fun nb =>
            anyCharBut nb r.2
        else
          Except.ok (pushNode r.2 (GNode.select r.1))
    | RTree.branch firstArg alts =>
      match firstArg with
      | some _ => Except.error TError.branchFirstArg
      | none =>
        (transformList alts ar).map fun r =>
          pushNode r.2 (GNode.select r.1)
    | RTree.maxRepeat low high arg =>
      (transform arg 0 ar).bind fun r =>
        match high with
        | RHigh.named s => Except.error (TError.maxRepeatHigh s)
        | RHigh.maxrepeat =>
          let z := zeroOrMore r.1 r.2
          if low == 0 then Except.ok z
          else Except.ok (pushNode z.2 (GNode.join (List.replicate low r.1 ++ [z.1])))
        | RHigh.num hi =>
          let o := optionalNode r.1 r.2
          Except.ok
            (pushNode o.2
              (GNode.join (List.replicate low r.1 ++ List.replicate (hi - low) o.1)))
    | RTree.subpattern _ flags2 unknown arg =>
      if unknown ≠ 0 then Except.error TError.subpatternUnknown
      else transform arg flags2 ar
    | RTree.category cat =>
      if cat = "CATEGORY_DIGIT" then
        Except.ok (pushNode ar (GNode.byteRange 48 57))
      else if cat = "CATEGORY_NOT_DIGIT" then
        Except.ok (anyCharBut (List.range' 48 10) ar)
      else if cat = "CATEGORY_WORD" then
        let r1 := pushNode ar (GNode.byteRange 48 57)
        let r2 := pushNode r1.2 (GNode.byteRange 65 90)
        let r3 := pushNode r2.2 (GNode.byteRange 97 122)
        let r4 := pushNode r3.2 (GNode.byte 95)
        Except.ok (pushNode r4.2 (GNode.select [r1.1, r2.1, r3.1, r4.1]))
      else if cat = "CATEGORY_NOT_WORD" then
        Except.ok
          (anyCharBut
            (List.range' 48 10 ++ List.range' 65 26 ++ List.range' 97 26 ++ [95]) ar)
      else if cat = "CATEGORY_SPACE" then
        let r1 := pushNode ar (GNode.byte 32)
        let r2 := pushNode r1.2 (GNode.byteRange 9 13)
        Except.ok (pushNode r2.2 (GNode.select [r1.1, r2.1]))
      else if cat = "CATEGORY_NOT_SPACE" then
        Except.ok (anyCharBut (32 :: List.range' 9 5) ar)
      else Except.error (TError.categoryNotImplemented cat)
    | RTree.other opcode => Except.error (TError.opcodeNotImplemented opcode)
termination_by (sizeOf t, 0)

/-- Transform a list of regex nodes left to right, threading the
arena. -/
def transformList (ts : List RTree) (ar : List GNode) :
    Except TError (List Nat × List GNode) :=
  match ts with
  | [] => Except.ok ([], ar)
  | t :: rest =>
    (transform t 0 ar).bind fun r =>
      (transformList rest r.2).map fun rs => (r.1 :: rs.1, rs.2)
termination_by (sizeOf ts, 1)

end

/-! # Theorems -/

/-- Claim C1: for the nullable self-recursive grammars `A -> A | ε`,
`A -> A B | ε` with `B -> x | ε`, and `A -> A C | B | ε` with
`B -> A`, `C -> x`, constructing an `EarleyCommitParser` and calling
`parse_tree()` terminates: the bounded closure and the cycle-guarded
tree reconstruction both return a result instead of diverging or
exhausting their (generous) budgets. -/
theorem claim1_parse_tree_terminates :
    (runOn gLoop1 []).isSome = true ∧ (parseTreeOf gLoop1).isSome = true ∧
    (runOn gLoop2 []).isSome = true ∧ (parseTreeOf gLoop2).isSome = true ∧
    (runOn gLoop3 []).isSome = true ∧ (parseTreeOf gLoop3).isSome = true :=
  ⟨rfl, rfl, rfl, rfl, rfl, rfl⟩

/-- Claim C3: for `B = select(["x","y",""])` named `"B"` and
`A = select([B,""], recursive=True)` named `"A"`, consuming `x`, `y`,
`x` yields captures `B = "x", A = "x"`, then `B = "y", A = "xy"`, then
`B = "x", A = "xyx"` (the parse being settled each time), and each
consumed byte triggers exactly one additional from-root capture
recomputation. -/
theorem claim3_captures_from_root :
    (runOn gCaps [120]).map getCaptures
      = some ([("B", [120]), ("A", [120])], true) ∧
    (runOn gCaps [120]).map PState.fromRootCount = some 1 ∧
    (runOn gCaps [120, 121]).map getCaptures
      = some ([("B", [121]), ("A", [120, 121])], true) ∧
    (runOn gCaps [120, 121]).map PState.fromRootCount = some 2 ∧
    (runOn gCaps [120, 121, 120]).map getCaptures
      = some ([("B", [120]), ("A", [120, 121, 120])], true) ∧
    (runOn gCaps [120, 121, 120]).map PState.fromRootCount = some 3 :=
  ⟨rfl, rfl, rfl, rfl, rfl, rfl⟩

/-- Claim C4: for `C = A + "z"` over the same `A`/`B`, the captures
before the `z` byte are best-known partial spans — `B` maps to the
empty span while `A` accumulates the consumed bytes — with the parse
not yet settled; only once `z` completes the parse do the captures
converge to the final fully-settled values (`B = "y"`, `A = "xy"`),
the `z` byte triggering the from-root pass rather than a further
partial pass. -/
theorem claim4_provisional_captures :
    (runOn gCapsZ [120]).map getCaptures
      = some ([("B", []), ("A", [120])], false) ∧
    (runOn gCapsZ [120]).map PState.provisionalCount = some 1 ∧
    (runOn gCapsZ [120, 121]).map getCaptures
      = some ([("B", []), ("A", [120, 121])], false) ∧
    (runOn gCapsZ [120, 121]).map PState.provisionalCount = some 2 ∧
    (runOn gCapsZ [120, 121, 122]).map getCaptures
      = some ([("B", [121]), ("A", [120, 121])], true) ∧
    (runOn gCapsZ [120, 121, 122]).map PState.provisionalCount = some 2 ∧
    (runOn gCapsZ [120, 121, 122]).map PState.fromRootCount = some 1 :=
  ⟨rfl, rfl, rfl, rfl, rfl, rfl, rfl⟩

/-- Claim C5: for every grammar and byte string fully consumed
without rejection, the result's `.partial` flag is false iff the root
has a completed match ending exactly at the end of the input, and
true iff no item of the final chart column represents a full match of
the root; concretely, a grammar-conformant complete JSON object
string matches with `.partial = false` and its prefix `"{"` matches
with `.partial = true` without raising. -/
theorem claim5_open_ended_flag :
    (∀ (g : Grammar) (bs : List Nat) (st : PState), runOn g bs = some st →
      (matchRaise g bs = Except.ok ⟨false, false⟩
          ↔ rootCompleteCol st.g (lastCol st) = true) ∧
      (matchRaise g bs = Except.ok ⟨true, false⟩
          ↔ rootCompleteCol st.g (lastCol st) = false)) ∧
    matchRaise gObj [123, 34, 97, 34, 58, 49, 125] = Except.ok ⟨false, false⟩ ∧
    matchRaise gObj [123] = Except.ok ⟨true, false⟩ := by
  refine ⟨?_, rfl, rfl⟩
  intro g bs st h
  unfold runOn at h
  cases hinit : initState g with
  | error e => rw [hinit] at h; exact absurd h (by simp)
  | ok st0 =>
    rw [hinit] at h
    simp only at h
    cases hrun : consumeBytes st0 bs with
    | error e => rw [hrun] at h; exact absurd h (by simp [Except.toOption])
    | ok st' =>
      rw [hrun] at h
      simp only [Except.toOption, Option.some.injEq] at h
      subst h
      have hm : matchRaise g bs = Except.ok ⟨!rootComplete st', false⟩ := by
        unfold matchRaise
        rw [hinit]
        simp [Except.bind, hrun, Except.map]
      rw [hm]
      unfold rootComplete at *
      cases hroot : rootCompleteCol st'.g (lastCol st') <;>
        simp [MatchResult.mk.injEq]

/-- Witness for claim C5 at the concrete prefix input `"{"` of the
JSON object grammar. -/
theorem claim5_witness :
    runOn gObj [123] = some ((runOn gObj [123]).getD pstateDefault) ∧
    (matchRaise gObj [123] = Except.ok ⟨true, false⟩
        ↔ rootCompleteCol ((runOn gObj [123]).getD pstateDefault).g
            (lastCol ((runOn gObj [123]).getD pstateDefault)) = false) :=
  ⟨rfl, (claim5_open_ended_flag.1 gObj [123] _ rfl).2⟩

/-- Claim C6: whenever no active item accepts byte `b`, `consume_byte`
fails with the structured "no viable continuation" error carrying the
offending byte and the byte offset; concretely `match("0.1")` against
the integer-only grammar rejects at the `.` byte at offset 1 when
raising, and returns an invalid-flagged result when not raising. -/
theorem claim6_no_viable_continuation :
    (∀ (st : PState) (b : Nat), noAcceptingItem st b = true →
        consumeByte st b = Except.error (PError.noViable b st.bytes.length)) ∧
    matchRaise gInt [48, 46, 49] = Except.error (PError.noViable 46 1) ∧
    matchNoRaise gInt [48, 46, 49] = some ⟨false, true⟩ := by
  refine ⟨?_, rfl, rfl⟩
  intro st b h
  unfold consumeByte
  have hscan : scanColumn st.g (lastCol st) b = [] := by
    unfold scanColumn
    rw [List.filterMap_eq_nil_iff]
    intro it hit
    have hall := (List.all_eq_true.mp h) it hit
    cases hns : nextSym it with
    | none => simp [hns]
    | some hh =>
      rw [hns] at hall
      simp only [Bool.not_eq_true'] at hall
      simp [hns, hall]
  simp [hscan]

/-- Witness for claim C6: the parser state after consuming `0` on the
integer grammar rejects the `.` byte (46) at offset 1. -/
theorem claim6_witness :
    noAcceptingItem ((runOn gInt [48]).getD pstateDefault) 46 = true ∧
    consumeByte ((runOn gInt [48]).getD pstateDefault) 46
      = Except.error (PError.noViable 46 1) :=
  ⟨rfl, claim6_no_viable_continuation.1 _ 46 rfl⟩

/-! ## Claim C2: mask / valid-next-bytes agreement -/

/-- Setting one slot of a boolean mask: the slot reads true afterwards
iff it is the (in-range) slot just set or it was already true. -/
theorem getD_set_true (m : List Bool) (i v : Nat) :
    ((m.set i true).getD v false = true)
      ↔ ((v = i ∧ i < m.length) ∨ m.getD v false = true) := by
  rw [List.getD_eq_getElem?_getD, List.getD_eq_getElem?_getD, List.getElem?_set]
  by_cases hiv : i = v
  · subst hiv
    by_cases hlen : i < m.length
    · simp [hlen]
    · simp [hlen, List.getElem?_eq_none (Nat.le_of_not_lt hlen)]
  · have hvi : ¬(v = i) := fun hh => hiv hh.symm
    simp [hiv, hvi]

/-- Folding slot-sets over a list of indices preserves the mask
length. -/
theorem length_setTrue_fold (l : List Nat) (m : List Bool) :
    (l.foldl (fun m' v => m'.set v true) m).length = m.length := by
  induction l generalizing m with
  | nil => rfl
  | cons a l ih => simp [List.foldl_cons, ih, List.length_set]

/-- Folding slot-sets over a list of indices: a slot reads true iff it
is one of the (in-range) indices or was already true. -/
theorem setTrue_fold_getD (l : List Nat) (m : List Bool) (v : Nat) :
    (((l.foldl (fun m' v => m'.set v true) m).getD v false) = true)
      ↔ ((v ∈ l ∧ v < m.length) ∨ m.getD v false = true) := by
  induction l generalizing m with
  | nil => simp
  | cons a l ih =>
    rw [List.foldl_cons, ih, getD_set_true]
    simp only [List.length_set, List.mem_cons]
    constructor
    · rintro (⟨hm, hlen⟩ | (⟨rfl, h⟩ | h))
      · exact Or.inl ⟨Or.inr hm, hlen⟩
      · exact Or.inl ⟨Or.inl rfl, h⟩
      · exact Or.inr h
    · rintro (⟨(rfl | hm), hlen⟩ | h)
      · exact Or.inr (Or.inl ⟨rfl, hlen⟩)
      · exact Or.inl ⟨hm, hlen⟩
      · exact Or.inr (Or.inr h)

/-- `maskAcc` preserves the mask length. -/
theorem maskAcc_length (m : List Bool) (t : GNode) :
    (maskAcc m t).length = m.length := by
  cases t <;> simp [maskAcc, List.length_set, length_setTrue_fold]

/-- One `maskAcc` step: a slot reads true iff the terminal accepts the
(in-range) byte value or the slot was already true. -/
theorem maskAcc_getD (m : List Bool) (t : GNode) (v : Nat) :
    ((maskAcc m t).getD v false = true)
      ↔ ((acceptsByte t v = true ∧ v < m.length) ∨ m.getD v false = true) := by
  cases t with
  | byte b =>
    simp only [maskAcc, getD_set_true, acceptsByte, beq_iff_eq]
    constructor
    · rintro (⟨rfl, h⟩ | h)
      · exact Or.inl ⟨rfl, h⟩
      · exact Or.inr h
    · rintro (⟨rfl, h⟩ | h)
      · exact Or.inl ⟨rfl, h⟩
      · exact Or.inr h
  | byteRange lo hi =>
    simp only [maskAcc, setTrue_fold_getD, acceptsByte, List.mem_range'_1,
      Bool.and_eq_true, decide_eq_true_eq]
    constructor
    · rintro (⟨⟨h1, h2⟩, hlen⟩ | h)
      · exact Or.inl ⟨⟨h1, by omega⟩, hlen⟩
      · exact Or.inr h
    · rintro (⟨⟨h1, h2⟩, hlen⟩ | h)
      · exact Or.inl ⟨⟨h1, by omega⟩, hlen⟩
      · exact Or.inr h
  | join cs => simp [maskAcc, acceptsByte]
  | select vs => simp [maskAcc, acceptsByte]
  | capture nm c => simp [maskAcc, acceptsByte]
  | placeholder => simp [maskAcc, acceptsByte]

/-- Folding `maskAcc` over a terminal list: a slot reads true iff some
terminal accepts the (in-range) byte value or the slot was already
true. -/
theorem maskAcc_fold_getD (ts : List GNode) (m : List Bool) (v : Nat) :
    ((ts.foldl maskAcc m).getD v false = true)
      ↔ (((∃ t ∈ ts, acceptsByte t v = true) ∧ v < m.length)
          ∨ m.getD v false = true) := by
  induction ts generalizing m with
  | nil => simp
  | cons t ts ih =>
    rw [List.foldl_cons, ih, maskAcc_getD, maskAcc_length]
    constructor
    · rintro (⟨⟨u, hu, hacc⟩, hlen⟩ | (⟨hacc, hlen⟩ | h))
      · exact Or.inl ⟨⟨u, List.mem_cons_of_mem _ hu, hacc⟩, hlen⟩
      · exact Or.inl ⟨⟨t, List.mem_cons_self _ _, hacc⟩, hlen⟩
      · exact Or.inr h
    · rintro (⟨⟨u, hu, hacc⟩, hlen⟩ | h)
      · rcases List.mem_cons.mp hu with rfl | hu
        · exact Or.inr (Or.inl ⟨hacc, hlen⟩)
        · exact Or.inl ⟨⟨u, hu, hacc⟩, hlen⟩
      · exact Or.inr (Or.inr h)

/-- Claim C2: for every grammar and parser state, `next_byte_mask()`
and `valid_next_bytes()` agree: for every byte value `v` in `0..255`,
the mask entry at `v` is true iff `v` equals the byte of some `Byte`
member of `valid_next_bytes()` or lies within the inclusive bounds of
some `ByteRange` member. -/
theorem claim2_mask_agrees_valid_next_bytes (st : PState) (v : Nat)
    (h : v < 256) :
    ((nextByteMask st.g (lastCol st)).getD v false = true)
      ↔ (∃ t ∈ validNextBytes st, acceptsByte t v = true) := by
  unfold nextByteMask validNextBytes
  rw [maskAcc_fold_getD]
  have hrep : (List.replicate 256 false).getD v false = false := by
    rw [List.getD_eq_getElem?_getD, List.getElem?_replicate]
    split <;> rfl
  have hlen : (List.replicate 256 false).length = 256 := List.length_replicate 256 false
  rw [hrep, hlen]
  simp [h]

/-- Witness for claim C2 at the initial state of the integer grammar
and byte value 48 (the digit `0`). -/
theorem claim2_witness :
    (48 < 256) ∧
    (((nextByteMask ((runOn gInt []).getD pstateDefault).g
          (lastCol ((runOn gInt []).getD pstateDefault))).getD 48 false = true)
      ↔ (∃ t ∈ validNextBytes ((runOn gInt []).getD pstateDefault),
          acceptsByte t 48 = true)) :=
  ⟨by decide, claim2_mask_agrees_valid_next_bytes _ 48 (by decide)⟩

/-! ## Claim C8: nullability is the least fixed point -/

/-- The nullability step preserves the vector length. -/
theorem nullStep_length (g : Grammar) (v : List Bool) :
    (nullStep g v).length = g.nodes.length :=
  List.length_map _ _

/-- Every iterate of the nullability step has the arena's length. -/
theorem nullIter_length (g : Grammar) (m : Nat) :
    ((nullStep g)^[m] (List.replicate g.nodes.length false)).length
      = g.nodes.length := by
  induction m with
  | zero => simp
  | succ m ih => rw [Function.iterate_succ_apply']; exact nullStep_length _ _

/-- Reading the stepped vector at a handle. -/
theorem nullStep_getD (g : Grammar) (v : List Bool) (h : Nat) :
    ((nullStep g v).getD h false = true)
      ↔ (h < g.nodes.length ∧ nodeNull v (g.get h) = true) := by
  rw [nullStep, List.getD_eq_getElem?_getD, List.getElem?_map]
  by_cases hlt : h < g.nodes.length
  · have hsome : g.nodes[h]? = some (g.get h) := by
      rw [Grammar.get, List.getD_eq_getElem?_getD]
      cases hh : g.nodes[h]? with
      | none => exact absurd (List.getElem?_eq_none_iff.mp hh) (Nat.not_le_of_lt hlt)
      | some n => rfl
    rw [hsome]
    simp [hlt]
  · have hnone : g.nodes[h]? = none :=
      List.getElem?_eq_none (Nat.le_of_not_lt hlt)
    rw [hnone]
    simp [hlt]

/-- The bottom vector reads false everywhere. -/
theorem nullBot_getD (g : Grammar) (h : Nat) :
    (List.replicate g.nodes.length false).getD h false = false := by
  rw [List.getD_eq_getElem?_getD, List.getElem?_replicate]
  split <;> rfl

/-- One node's nullability is monotone in the vector. -/
theorem nodeNull_mono (n : GNode) (v w : List Bool)
    (hvw : ∀ i, v.getD i false = true → w.getD i false = true) :
    nodeNull v n = true → nodeNull w n = true := by
  cases n with
  | byte b => simp [nodeNull]
  | byteRange lo hi => simp [nodeNull]
  | join cs =>
    simp only [nodeNull, List.all_eq_true]
    intro hall c hc
    exact hvw _ (hall c hc)
  | select vs =>
    simp only [nodeNull, List.any_eq_true]
    rintro ⟨c, hc, hv⟩
    exact ⟨c, hc, hvw _ hv⟩
  | capture nm c =>
    simp only [nodeNull]
    exact hvw _
  | placeholder => simp [nodeNull]

/-- The nullability step is monotone. -/
theorem nullStep_mono (g : Grammar) (v w : List Bool)
    (hvw : ∀ i, v.getD i false = true → w.getD i false = true) :
    ∀ i, (nullStep g v).getD i false = true →
      (nullStep g w).getD i false = true := by
  intro i hi
  rw [nullStep_getD] at hi ⊢
  exact ⟨hi.1, nodeNull_mono _ _ _ hvw hi.2⟩

/-- The iterates of the nullability step form an ascending chain. -/
theorem nullIter_le_succ (g : Grammar) (m : Nat) :
    ∀ i, ((nullStep g)^[m] (List.replicate g.nodes.length false)).getD i false = true →
      ((nullStep g)^[m + 1] (List.replicate g.nodes.length false)).getD i false = true := by
  induction m with
  | zero =>
    intro i hi
    rw [Function.iterate_zero_apply, nullBot_getD] at hi
    exact absurd hi (by simp)
  | succ m ih =>
    rw [Function.iterate_succ_apply', Function.iterate_succ_apply']
    exact nullStep_mono g _ _ ih

/-- A pointwise-smaller boolean vector of the same length has at most
as many true entries. -/
theorem vle_count (v : List Bool) :
    ∀ w : List Bool, v.length = w.length →
      (∀ i, v.getD i false = true → w.getD i false = true) →
      v.count true ≤ w.count true := by
  induction v with
  | nil => intro w _ _; exact Nat.zero_le _
  | cons a v ih =>
    intro w hlen hvw
    cases w with
    | nil => exact absurd hlen (by simp)
    | cons b w =>
      have hhead : a = true → b = true := by
        intro haa
        have h0 := hvw 0
        rw [List.getD_cons_zero, List.getD_cons_zero] at h0
        exact h0 haa
      have htail : ∀ i, v.getD i false = true → w.getD i false = true := by
        intro i hi
        have h2 := hvw (i + 1)
        rw [List.getD_cons_succ, List.getD_cons_succ] at h2
        exact h2 hi
      have hc := ih w (by simpa using hlen) htail
      simp only [List.count_cons]
      cases a with
      | false => cases b <;> simp <;> omega
      | true =>
        have hb := hhead rfl
        subst hb
        simp
        omega

/-- A pointwise-smaller but different boolean vector of the same
length has strictly fewer true entries. -/
theorem vle_count_strict (v : List Bool) :
    ∀ w : List Bool, v.length = w.length →
      (∀ i, v.getD i false = true → w.getD i false = true) →
      v ≠ w → v.count true < w.count true := by
  induction v with
  | nil =>
    intro w hlen _ hne
    cases w with
    | nil => exact absurd rfl hne
    | cons b w => exact absurd hlen (by simp)
  | cons a v ih =>
    intro w hlen hvw hne
    cases w with
    | nil => exact absurd hlen (by simp)
    | cons b w =>
      have hhead : a = true → b = true := by
        intro haa
        have h0 := hvw 0
        rw [List.getD_cons_zero, List.getD_cons_zero] at h0
        exact h0 haa
      have htail : ∀ i, v.getD i false = true → w.getD i false = true := by
        intro i hi
        have h2 := hvw (i + 1)
        rw [List.getD_cons_succ, List.getD_cons_succ] at h2
        exact h2 hi
      have hlen' : v.length = w.length := by simpa using hlen
      by_cases hab : a = b
      · subst hab
        have hvw' : v ≠ w := by
          intro hh
          exact hne (by rw [hh])
        have hst := ih w hlen' htail hvw'
        simp only [List.count_cons]
        omega
      · cases a with
        | true => exact absurd (hhead rfl).symm hab
        | false =>
          cases b with
          | false => exact absurd rfl hab
          | true =>
            have hcc := vle_count v w hlen' htail
            simp only [List.count_cons]
            simp
            omega

/-- The chain of the nullability iterates stabilises within the
number of nodes. -/
theorem nullIter_stab_exists (g : Grammar) :
    ∃ k, k ≤ g.nodes.length ∧
      (nullStep g)^[k + 1] (List.replicate g.nodes.length false)
        = (nullStep g)^[k] (List.replicate g.nodes.length false) := by
  by_contra hno
  push_neg at hno
  have key : ∀ m, m ≤ g.nodes.length + 1 →
      m ≤ ((nullStep g)^[m] (List.replicate g.nodes.length false)).count true := by
    intro m
    induction m with
    | zero => intro _; exact Nat.zero_le _
    | succ m ih =>
      intro hm1
      have hm : m ≤ g.nodes.length := by omega
      have hlt := vle_count_strict
        ((nullStep g)^[m] (List.replicate g.nodes.length false))
        ((nullStep g)^[m + 1] (List.replicate g.nodes.length false))
        (by rw [nullIter_length, nullIter_length])
        (nullIter_le_succ g m)
        (fun hh => hno m hm hh.symm)
      have := ih (by omega)
      omega
  have h1 := key (g.nodes.length + 1) le_rfl
  have h2 : ((nullStep g)^[g.nodes.length + 1]
      (List.replicate g.nodes.length false)).count true ≤ g.nodes.length := by
    calc ((nullStep g)^[g.nodes.length + 1]
        (List.replicate g.nodes.length false)).count true
        ≤ ((nullStep g)^[g.nodes.length + 1]
            (List.replicate g.nodes.length false)).length :=
          List.count_le_length _ _
      _ = g.nodes.length := nullIter_length g _
  omega

/-- Once two consecutive iterates agree, all later iterates agree. -/
theorem nullIter_stab_persist (g : Grammar) (k : Nat)
    (h : (nullStep g)^[k + 1] (List.replicate g.nodes.length false)
      = (nullStep g)^[k] (List.replicate g.nodes.length false)) :
    ∀ j, k ≤ j →
      (nullStep g)^[j] (List.replicate g.nodes.length false)
        = (nullStep g)^[k] (List.replicate g.nodes.length false) := by
  intro j hj
  induction j, hj using Nat.le_induction with
  | base => rfl
  | succ j hj ih =>
    rw [Function.iterate_succ_apply', ih]
    exact ((Function.iterate_succ_apply' (nullStep g) k
      (List.replicate g.nodes.length false)).symm.trans h)

/-- The computed nullability vector is a fixed point of the
propagation step. -/
theorem nullVec_fix (g : Grammar) : nullStep g (nullVec g) = nullVec g := by
  obtain ⟨k, hk, hstab⟩ := nullIter_stab_exists g
  have h1 : nullVec g
      = (nullStep g)^[k] (List.replicate g.nodes.length false) := by
    rw [nullVec]
    exact nullIter_stab_persist g k hstab _ (by omega)
  rw [h1]
  exact ((Function.iterate_succ_apply' (nullStep g) k
    (List.replicate g.nodes.length false)).symm.trans hstab)

/-- Every true entry of an iterate is justified by the inductive
least-fixed-point rules. -/
theorem nullIter_sound (g : Grammar) (m : Nat) :
    ∀ h, ((nullStep g)^[m] (List.replicate g.nodes.length false)).getD h false = true →
      NullableSpec g h := by
  induction m with
  | zero =>
    intro h hh
    rw [Function.iterate_zero_apply, nullBot_getD] at hh
    exact absurd hh (by simp)
  | succ m ih =>
    intro h hh
    rw [Function.iterate_succ_apply', nullStep_getD] at hh
    obtain ⟨hlt, hnode⟩ := hh
    cases hget : g.get h with
    | byte b => rw [hget] at hnode; exact absurd hnode (by simp [nodeNull])
    | byteRange lo hi => rw [hget] at hnode; exact absurd hnode (by simp [nodeNull])
    | join cs =>
      rw [hget] at hnode
      simp only [nodeNull, List.all_eq_true] at hnode
      exact NullableSpec.join h cs hget (fun c hc => ih c (hnode c hc)) hlt
    | select vs =>
      rw [hget] at hnode
      simp only [nodeNull, List.any_eq_true] at hnode
      obtain ⟨c, hc, hcv⟩ := hnode
      exact NullableSpec.select h vs c hget hc (ih c hcv) hlt
    | capture nm c =>
      rw [hget] at hnode
      simp only [nodeNull] at hnode
      exact NullableSpec.capture h nm c hget (ih c hnode) hlt
    | placeholder => rw [hget] at hnode; exact absurd hnode (by simp [nodeNull])

/-- Every node justified by the least-fixed-point rules reads true in
the computed nullability vector. -/
theorem nullSpec_sound (g : Grammar) (h : Nat) (hs : NullableSpec g h) :
    nullable g h = true := by
  induction hs with
  | join h cs hget hall hlt ih =>
    show (nullVec g).getD h false = true
    rw [← nullVec_fix g, nullStep_getD]
    refine ⟨hlt, ?_⟩
    rw [hget]
    simp only [nodeNull, List.all_eq_true]
    exact fun c hc => ih c hc
  | select h vs c hget hc hcs hlt ih =>
    show (nullVec g).getD h false = true
    rw [← nullVec_fix g, nullStep_getD]
    refine ⟨hlt, ?_⟩
    rw [hget]
    simp only [nodeNull, List.any_eq_true]
    exact ⟨c, hc, ih⟩
  | capture h nm c hget hcs hlt ih =>
    show (nullVec g).getD h false = true
    rw [← nullVec_fix g, nullStep_getD]
    refine ⟨hlt, ?_⟩
    rw [hget]
    simpa only [nodeNull] using ih

/-- Claim C8: for every grammar node the derived nullable property
equals the least fixed point of the spec's rules (terminals never
nullable, a join iff all children, a select iff some alternative, a
capture iff its inner node) — including for the mutated cyclic select
graph `A.values = [A + C, B, ""]`, `B.values = [A]`, where both `A`
(handle 4) and `B` (handle 5) are nullable. -/
theorem claim8_nullable_least_fixed_point :
    (∀ (g : Grammar) (h : Nat), nullable g h = true ↔ NullableSpec g h) ∧
    nullable gLoop3 4 = true ∧ nullable gLoop3 5 = true := by
  refine ⟨fun g h => ⟨fun hh => ?_, fun hs => nullSpec_sound g h hs⟩, rfl, rfl⟩
  rw [nullable, nullVec] at hh
  exact nullIter_sound g _ h hh

/-! ## Claim C9: the decorator's placeholder protocol -/

/-- Handle substitution never produces the replaced handle when the
replacement differs from it. -/
theorem substH_ne (p nw c : Nat) (hne : nw ≠ p) : substH p nw c ≠ p := by
  unfold substH
  split
  · exact hne
  · assumption

/-- The children of a substituted node are the substituted
children. -/
theorem childHandles_replaceNode (old nw : Nat) (n : GNode) :
    childHandles (replaceNode old nw n) = (childHandles n).map (substH old nw) := by
  cases n <;> rfl

/-- After substituting `p` away (by something different from `p`), no
node of the graph references `p` any more. -/
theorem replaceGrammarNode_no_refs (nodes : List GNode) (p nw : Nat)
    (hne : nw ≠ p) :
    referencesHandle (replaceGrammarNode nodes p nw) p = false := by
  unfold referencesHandle replaceGrammarNode
  rw [List.any_eq_false]
  intro n hn
  obtain ⟨n0, _, rfl⟩ := List.mem_map.mp hn
  rw [childHandles_replaceNode, List.contains_eq_any_beq]
  intro hany
  obtain ⟨x, hx, hbeq⟩ := List.any_eq_true.mp hany
  obtain ⟨c, _, rfl⟩ := List.mem_map.mp hx
  exact substH_ne p nw c hne (beq_iff_eq.mp hbeq).symm

/-- Claim C9: the stateless `wrapped` function of the `guidance`
decorator.  (a) While the placeholder attribute is set, any call —
this is what a recursive self-call is — returns the placeholder and
changes nothing.  (b) A zero-argument call installs the fresh
placeholder handle for self-calls, calls the function body with it,
returns the body's node with every occurrence of the placeholder in
the node graph replaced by that node, and removes the attribute; when
the body's node is not the placeholder itself the graph no longer
references the placeholder at all.  (c) A call with one or more
arguments installs no placeholder: the body is invoked with the
attribute unset (so a self-call inside re-invokes the function
directly) and the attribute stays unset. -/
theorem claim9_placeholder_protocol :
    (∀ (body : Option Nat → List GNode → Nat × List GNode)
        (nargs p : Nat) (arena : List GNode),
      wrapped body nargs (some p) arena = (p, some p, arena)) ∧
    (∀ (body : Option Nat → List GNode → Nat × List GNode)
        (arena : List GNode),
      (wrapped body 0 none arena).1
          = (body (some arena.length) (arena ++ [GNode.placeholder])).1 ∧
      (wrapped body 0 none arena).2.1 = none ∧
      (wrapped body 0 none arena).2.2
          = replaceGrammarNode
              (body (some arena.length) (arena ++ [GNode.placeholder])).2
              arena.length
              (body (some arena.length) (arena ++ [GNode.placeholder])).1 ∧
      ((body (some arena.length) (arena ++ [GNode.placeholder])).1
          ≠ arena.length →
        referencesHandle (wrapped body 0 none arena).2.2 arena.length
          = false)) ∧
    (∀ (body : Option Nat → List GNode → Nat × List GNode)
        (nargs : Nat) (arena : List GNode), nargs ≠ 0 →
      wrapped body nargs none arena
        = ((body none arena).1, none, (body none arena).2)) := by
  refine ⟨fun body nargs p arena => rfl, fun body arena => ⟨rfl, rfl, rfl, ?_⟩,
    fun body nargs arena h => ?_⟩
  · intro hne
    exact replaceGrammarNode_no_refs _ _ _ hne
  · unfold wrapped
    rw [if_neg (by simpa using h)]

/-- Witness for claim C9 with the concrete recursive body `bodyEx`:
the zero-argument call leaves no reference to the placeholder, and a
one-argument call invokes the body directly with no placeholder. -/
theorem claim9_witness :
    ((bodyEx (some 0) ([] ++ [GNode.placeholder])).1 ≠ 0) ∧
    referencesHandle (wrapped bodyEx 0 none []).2.2 0 = false ∧
    ((1 : Nat) ≠ 0) ∧
    wrapped bodyEx 1 none [] = ((bodyEx none []).1, none, (bodyEx none []).2) :=
  ⟨by decide,
    (claim9_placeholder_protocol.2.1 bodyEx []).2.2.2 (by decide),
    by decide,
    claim9_placeholder_protocol.2.2 bodyEx 1 [] (by decide)⟩

/-! ## Claim C10: the regex transformer rejects unsupported input -/

/-- Claim C10: `Transformer.transform` raises `NotImplementedError`
for every call with non-zero regex flags and for every regex node
whose opcode has no handler method; no grammar is produced in either
case. -/
theorem claim10_transform_not_implemented :
    (∀ (t : RTree) (flags : Nat) (ar : List GNode), flags ≠ 0 →
      transform t flags ar = Except.error TError.flagsNotImplemented) ∧
    (∀ (opcode : String) (ar : List GNode),
      transform (RTree.other opcode) 0 ar
        = Except.error (TError.opcodeNotImplemented opcode)) := by
  constructor
  · intro t flags ar h
    unfold transform
    rw [if_pos h]
  · intro opcode ar
    unfold transform
    rfl

/-- Witness for claim C10: a literal under flag 1 and the unhandled
`AT` opcode (an anchor such as `^`) both fail with
`NotImplementedError`. -/
theorem claim10_witness :
    ((1 : Nat) ≠ 0) ∧
    transform (RTree.literal 97) 1 []
      = Except.error TError.flagsNotImplemented ∧
    transform (RTree.other ("AT")) 0 []
      = Except.error (TError.opcodeNotImplemented ("AT")) :=
  ⟨by decide,
    claim10_transform_not_implemented.1 (RTree.literal 97) 1 [] (by decide),
    claim10_transform_not_implemented.2 ("AT") []⟩

/-! ## Claim C7: the origin-renaming simulation

Pumping a repeated section of the input leaves the parser state
invariant up to a strictly monotone renaming of chart-column indices.
The lemmas below prove that one byte consumption commutes with such a
renaming (`closure_map`, `consume_sim`), that renaming-related states
give identical `valid_next_bytes` results, and that the concrete
repetition states of `gZeroOne` are related in this way. -/

/-- Renaming the origin is injective on items when the renaming is. -/
theorem mapItem_injective (σ : Nat → Nat) (hinj : Function.Injective σ) :
    Function.Injective (mapItem σ) := by
  intro a b hab
  cases a; cases b
  simp only [mapItem, Item.mk.injEq] at hab ⊢
  exact ⟨hab.1, hab.2.1, hab.2.2.1, hinj hab.2.2.2⟩

/-- Renaming the origin does not change the next expected element. -/
theorem nextSym_mapItem (σ : Nat → Nat) (it : Item) :
    nextSym (mapItem σ it) = nextSym it := rfl

/-- Renaming the origin commutes with advancing. -/
theorem advanceItem_mapItem (σ : Nat → Nat) (it : Item) :
    advanceItem (mapItem σ it) = mapItem σ (advanceItem it) := rfl

/-- Equality tests of renamed origins agree with the original tests
when the renaming is injective. -/
theorem beq_map_inj (σ : Nat → Nat) (hinj : Function.Injective σ)
    (a b : Nat) : (σ a == σ b) = (a == b) := by
  by_cases hab : a = b
  · subst hab; simp
  · have hne : σ a ≠ σ b := fun hh => hab (hinj hh)
    simp [hab, hne]

/-- Membership among renamed items agrees with the original
membership when the renaming is injective. -/
theorem mem_map_mapItem (σ : Nat → Nat) (hinj : Function.Injective σ)
    (it : Item) (l : List Item) :
    (mapItem σ it ∈ l.map (mapItem σ)) ↔ it ∈ l :=
  List.mem_map_of_injective (mapItem_injective σ hinj)

/-- Predictions at the renamed column are the renamed predictions. -/
theorem predictions_map (g : Grammar) (σ : Nat → Nat) (h k : Nat) :
    (predictions g h k).map (mapItem σ) = predictions g h (σ k) := by
  cases hget : g.get h with
  | select vs =>
    simp only [predictions, hget, List.map_map]
    rfl
  | join cs => simp only [predictions, hget, List.map_cons, List.map_nil]; rfl
  | capture nm c => simp only [predictions, hget, List.map_cons, List.map_nil]; rfl
  | byte b => simp [predictions, hget]
  | byteRange lo hi => simp [predictions, hget]
  | placeholder => simp [predictions, hget]

/-- The completer's waiters of a renamed parent column are the renamed
waiters. -/
theorem waitersFor_map (σ : Nat → Nat) (nd : Nat) (l : Column) :
    waitersFor nd (l.map (mapItem σ)) = (waitersFor nd l).map (mapItem σ) := by
  unfold waitersFor
  rw [List.filterMap_map, List.map_filterMap]
  congr 1
  funext q
  cases hns : nextSym q with
  | none => simp [nextSym_mapItem, hns, Function.comp]
  | some hh =>
    by_cases hhit : hh == nd
    · simp [nextSym_mapItem, hns, hhit, Function.comp, advanceItem_mapItem]
    · simp [nextSym_mapItem, hns, hhit, Function.comp]

/-- Every waiter starts no later than some parent-column item. -/
theorem waitersFor_starts (nd : Nat) (l : Column) (b : Nat)
    (hl : ∀ it ∈ l, it.start ≤ b) :
    ∀ w ∈ waitersFor nd l, w.start ≤ b := by
  intro w hw
  obtain ⟨q, hq, hfq⟩ := List.mem_filterMap.mp hw
  have hqb := hl q hq
  cases hns : nextSym q with
  | none => simp [hns] at hfq
  | some hh =>
    simp only [hns] at hfq
    by_cases hhit : (hh == nd) = true
    · rw [if_pos hhit] at hfq
      injection hfq with hfq2
      subst hfq2
      exact hqb
    · rw [if_neg hhit] at hfq
      exact absurd hfq (by simp)

/-- Step equation of the closure loop: a duplicate is skipped. -/
theorem closure_step_mem (g : Grammar) (cols : List Column) (k fuel : Nat)
    (cur : Column) (it : Item) (queue : List Item) (hmem : it ∈ cur) :
    closure g cols k (fuel + 1) cur (it :: queue)
      = closure g cols k fuel cur queue := by
  simp only [closure, if_pos hmem]

/-- Step equation of the closure loop: a complete item runs the
completer against its origin column. -/
theorem closure_step_complete (g : Grammar) (cols : List Column)
    (k fuel : Nat) (cur : Column) (it : Item) (queue : List Item)
    (hmem : it ∉ cur) (hns : nextSym it = none) :
    closure g cols k (fuel + 1) cur (it :: queue)
      = closure g cols k fuel (cur ++ [it])
          (queue ++ waitersFor it.node
            (if it.start == k then cur ++ [it] else cols.getD it.start [])) := by
  simp only [closure, if_neg hmem, hns]

/-- Step equation of the closure loop: an incomplete item waits on a
terminal or predicts a non-terminal (advancing immediately over a
nullable one). -/
theorem closure_step_sym (g : Grammar) (cols : List Column) (k fuel : Nat)
    (cur : Column) (it : Item) (queue : List Item) (h : Nat)
    (hmem : it ∉ cur) (hns : nextSym it = some h) :
    closure g cols k (fuel + 1) cur (it :: queue)
      = if g.isTerminal h then closure g cols k fuel (cur ++ [it]) queue
        else
          closure g cols k fuel (cur ++ [it])
            (queue ++ predictions g h k ++
              (if nullable g h then [advanceItem it] else [])) := by
  simp only [closure, if_neg hmem, hns]

/-- The closure loop commutes with an injective origin renaming: the
run over the renamed chart at the renamed position visits the renamed
items in the same order and produces the renamed column. -/
theorem closure_map (g : Grammar) (σ : Nat → Nat)
    (hinj : Function.Injective σ) (p : Nat) (cols cols' : List Column)
    (hcols : ∀ j, j ≤ p → cols'.getD (σ j) [] = (cols.getD j []).map (mapItem σ))
    (hcolstarts : ∀ j, ∀ it ∈ cols.getD j [], it.start ≤ j) :
    ∀ (fuel : Nat) (cur queue : List Item),
      (∀ it ∈ cur, it.start ≤ p + 1) → (∀ it ∈ queue, it.start ≤ p + 1) →
      closure g cols' (σ (p + 1)) fuel (cur.map (mapItem σ))
          (queue.map (mapItem σ))
        = Option.map (List.map (mapItem σ))
            (closure g cols (p + 1) fuel cur queue) := by
  intro fuel
  induction fuel with
  | zero => intro cur queue _ _; rfl
  | succ fuel ih =>
    intro cur queue hcur hqueue
    cases queue with
    | nil => rfl
    | cons it queue =>
      have hqtail : ∀ u ∈ queue, u.start ≤ p + 1 :=
        fun u hu => hqueue u (List.mem_cons_of_mem _ hu)
      have hitb : it.start ≤ p + 1 := hqueue it (List.mem_cons_self _ _)
      rw [List.map_cons]
      by_cases hmem : it ∈ cur
      · have hmem' : mapItem σ it ∈ cur.map (mapItem σ) :=
          List.mem_map_of_mem _ hmem
        rw [closure_step_mem g cols' _ fuel _ _ _ hmem',
          closure_step_mem g cols _ fuel _ _ _ hmem]
        exact ih cur queue hcur hqtail
      · have hmem' : mapItem σ it ∉ cur.map (mapItem σ) := by
          rw [mem_map_mapItem σ hinj]
          exact hmem
        have hcur' : ∀ u ∈ cur ++ [it], u.start ≤ p + 1 := by
          intro u hu
          rcases List.mem_append.mp hu with hu | hu
          · exact hcur u hu
          · rw [List.mem_singleton.mp hu]; exact hitb
        cases hns : nextSym it with
        | none =>
          have hns' : nextSym (mapItem σ it) = none := hns
          rw [closure_step_complete g cols' _ fuel _ _ _ hmem' hns',
            closure_step_complete g cols _ fuel _ _ _ hmem hns]
          have hpc :
              (if (mapItem σ it).start == σ (p + 1) then
                  cur.map (mapItem σ) ++ [mapItem σ it]
                else cols'.getD (mapItem σ it).start [])
              = (if it.start == p + 1 then cur ++ [it]
                  else cols.getD it.start []).map (mapItem σ) := by
            have hbeq : ((mapItem σ it).start == σ (p + 1))
                = (it.start == p + 1) := beq_map_inj σ hinj _ _
            rw [hbeq]
            by_cases hb : (it.start == p + 1) = true
            · rw [if_pos hb, if_pos hb]
              simp
            · rw [if_neg hb, if_neg hb]
              have hlt : it.start ≤ p := by
                have hne2 : it.start ≠ p + 1 := by
                  intro hh
                  rw [hh] at hb
                  simp at hb
                omega
              exact hcols it.start hlt
          rw [hpc, waitersFor_map]
          have hnode : (mapItem σ it).node = it.node := rfl
          have hcurmap : List.map (mapItem σ) cur ++ [mapItem σ it]
              = List.map (mapItem σ) (cur ++ [it]) := by
            rw [List.map_append]
            rfl
          rw [hnode, hcurmap, ← List.map_append]
          have hwb : ∀ w ∈ waitersFor it.node
              (if it.start == p + 1 then cur ++ [it] else cols.getD it.start []),
              w.start ≤ p + 1 := by
            apply waitersFor_starts
            by_cases hb : (it.start == p + 1) = true
            · rw [if_pos hb]
              exact hcur'
            · rw [if_neg hb]
              intro u hu
              have := hcolstarts it.start u hu
              omega
          have hq2 : ∀ u ∈ queue ++ waitersFor it.node
              (if it.start == p + 1 then cur ++ [it] else cols.getD it.start []),
              u.start ≤ p + 1 := by
            intro u hu
            rcases List.mem_append.mp hu with hu | hu
            · exact hqtail u hu
            · exact hwb u hu
          exact ih _ _ hcur' hq2
        | some h =>
          have hns' : nextSym (mapItem σ it) = some h := hns
          rw [closure_step_sym g cols' _ fuel _ _ _ h hmem' hns',
            closure_step_sym g cols _ fuel _ _ _ h hmem hns]
          by_cases hterm : g.isTerminal h = true
          · rw [if_pos hterm, if_pos hterm]
            have hcurmap : List.map (mapItem σ) cur ++ [mapItem σ it]
                = List.map (mapItem σ) (cur ++ [it]) := by
              rw [List.map_append]
              rfl
            rw [hcurmap]
            exact ih _ _ hcur' hqtail
          · rw [if_neg hterm, if_neg hterm]
            have hmapq :
                queue.map (mapItem σ) ++ predictions g h (σ (p + 1)) ++
                  (if nullable g h then [advanceItem (mapItem σ it)] else [])
                = (queue ++ predictions g h (p + 1) ++
                    (if nullable g h then [advanceItem it] else [])).map
                    (mapItem σ) := by
              rw [List.map_append, List.map_append, predictions_map]
              cases hn : nullable g h with
              | true => simp [advanceItem_mapItem]
              | false => simp
            have hcurmap : List.map (mapItem σ) cur ++ [mapItem σ it]
                = List.map (mapItem σ) (cur ++ [it]) := by
              rw [List.map_append]
              rfl
            rw [hmapq, hcurmap]
            have hq2 : ∀ u ∈ queue ++ predictions g h (p + 1) ++
                (if nullable g h then [advanceItem it] else []),
                u.start ≤ p + 1 := by
              intro u hu
              rcases List.mem_append.mp hu with hu | hu
              · rcases List.mem_append.mp hu with hu | hu
                · exact hqtail u hu
                · -- predictions start at p + 1
                  cases hget : g.get h with
                  | select vs =>
                    rw [predictions, hget] at hu
                    obtain ⟨alt, _, rfl⟩ := List.mem_map.mp hu
                    exact le_rfl
                  | join cs =>
                    rw [predictions, hget] at hu
                    rw [List.mem_singleton.mp hu]
                  | capture nm c =>
                    rw [predictions, hget] at hu
                    rw [List.mem_singleton.mp hu]
                  | byte b => rw [predictions, hget] at hu; exact absurd hu (by simp)
                  | byteRange lo hi =>
                    rw [predictions, hget] at hu; exact absurd hu (by simp)
                  | placeholder =>
                    rw [predictions, hget] at hu; exact absurd hu (by simp)
              · cases hn : nullable g h with
                | true =>
                  rw [if_pos hn] at hu
                  rw [List.mem_singleton.mp hu]
                  exact hitb
                | false => rw [if_neg (by simp [hn])] at hu; exact absurd hu (by simp)
            exact ih _ _ hcur' hq2

/-- Reading an appended list below the first part's length. -/
theorem getD_append_left {α : Type} (l l' : List α) (n : Nat) (d : α)
    (h : n < l.length) : (l ++ l').getD n d = l.getD n d := by
  rw [List.getD_eq_getElem?_getD, List.getD_eq_getElem?_getD,
    List.getElem?_append, if_pos h]

/-- Reading a snocked list at the original length. -/
theorem getD_append_self {α : Type} (l : List α) (x : α) (d : α) :
    (l ++ [x]).getD l.length d = x := by
  rw [List.getD_eq_getElem?_getD, List.getElem?_append_right le_rfl]
  simp

/-- Every item of a closed column has its origin at or before the
column position. -/
theorem closure_starts (g : Grammar) (cols : List Column) (k : Nat)
    (hcolstarts : ∀ j, ∀ it ∈ cols.getD j [], it.start ≤ j) :
    ∀ (fuel : Nat) (cur queue : List Item),
      (∀ it ∈ cur, it.start ≤ k) → (∀ it ∈ queue, it.start ≤ k) →
      ∀ col', closure g cols k fuel cur queue = some col' →
        ∀ it ∈ col', it.start ≤ k := by
  intro fuel
  induction fuel with
  | zero =>
    intro cur queue _ _ col' hcl
    exact absurd hcl (by simp [closure])
  | succ fuel ih =>
    intro cur queue hcur hqueue col' hcl
    cases queue with
    | nil =>
      simp only [closure, Option.some.injEq] at hcl
      subst hcl
      exact hcur
    | cons it queue =>
      have hqtail : ∀ u ∈ queue, u.start ≤ k :=
        fun u hu => hqueue u (List.mem_cons_of_mem _ hu)
      have hitb : it.start ≤ k := hqueue it (List.mem_cons_self _ _)
      by_cases hmem : it ∈ cur
      · rw [closure_step_mem g cols k fuel cur it queue hmem] at hcl
        exact ih cur queue hcur hqtail col' hcl
      · have hcur' : ∀ u ∈ cur ++ [it], u.start ≤ k := by
          intro u hu
          rcases List.mem_append.mp hu with hu | hu
          · exact hcur u hu
          · rw [List.mem_singleton.mp hu]; exact hitb
        cases hns : nextSym it with
        | none =>
          rw [closure_step_complete g cols k fuel cur it queue hmem hns] at hcl
          have hwb : ∀ w ∈ waitersFor it.node
              (if it.start == k then cur ++ [it] else cols.getD it.start []),
              w.start ≤ k := by
            apply waitersFor_starts
            by_cases hb : (it.start == k) = true
            · rw [if_pos hb]; exact hcur'
            · rw [if_neg hb]
              intro u hu
              have := hcolstarts it.start u hu
              omega
          refine ih _ _ hcur' ?_ col' hcl
          intro u hu
          rcases List.mem_append.mp hu with hu | hu
          · exact hqtail u hu
          · exact hwb u hu
        | some h =>
          rw [closure_step_sym g cols k fuel cur it queue h hmem hns] at hcl
          by_cases hterm : g.isTerminal h = true
          · rw [if_pos hterm] at hcl
            exact ih _ _ hcur' hqtail col' hcl
          · rw [if_neg hterm] at hcl
            refine ih _ _ hcur' ?_ col' hcl
            intro u hu
            rcases List.mem_append.mp hu with hu | hu
            · rcases List.mem_append.mp hu with hu | hu
              · exact hqtail u hu
              · cases hget : g.get h with
                | select vs =>
                  rw [predictions, hget] at hu
                  obtain ⟨alt, _, rfl⟩ := List.mem_map.mp hu
                  exact le_rfl
                | join cs =>
                  rw [predictions, hget] at hu
                  rw [List.mem_singleton.mp hu]
                | capture nm c =>
                  rw [predictions, hget] at hu
                  rw [List.mem_singleton.mp hu]
                | byte b => rw [predictions, hget] at hu; exact absurd hu (by simp)
                | byteRange lo hi =>
                  rw [predictions, hget] at hu; exact absurd hu (by simp)
                | placeholder =>
                  rw [predictions, hget] at hu; exact absurd hu (by simp)
            · cases hn : nullable g h with
              | true =>
                rw [if_pos hn] at hu
                rw [List.mem_singleton.mp hu]
                exact hitb
              | false => rw [if_neg (by simp [hn])] at hu; exact absurd hu (by simp)

/-- Scanning a renamed column advances the renamed items. -/
theorem scanColumn_map (g : Grammar) (σ : Nat → Nat) (col : Column) (b : Nat) :
    scanColumn g (col.map (mapItem σ)) b = (scanColumn g col b).map (mapItem σ) := by
  unfold scanColumn
  rw [List.filterMap_map, List.map_filterMap]
  congr 1
  funext q
  cases hns : nextSym q with
  | none => simp [nextSym_mapItem, hns, Function.comp]
  | some hh =>
    by_cases hacc : acceptsByte (g.get hh) b = true
    · simp [nextSym_mapItem, hns, hacc, Function.comp, advanceItem_mapItem]
    · simp [nextSym_mapItem, hns, hacc, Function.comp]

/-- Scanned items keep the origins of the scanned column. -/
theorem scanColumn_starts (g : Grammar) (col : Column) (b p : Nat)
    (hcol : ∀ it ∈ col, it.start ≤ p) :
    ∀ w ∈ scanColumn g col b, w.start ≤ p := by
  intro w hw
  obtain ⟨q, hq, hfq⟩ := List.mem_filterMap.mp hw
  have hqb := hcol q hq
  cases hns : nextSym q with
  | none => simp [hns] at hfq
  | some hh =>
    simp only [hns] at hfq
    by_cases hacc : acceptsByte (g.get hh) b = true
    · rw [if_pos hacc] at hfq
      injection hfq with hfq2
      subst hfq2
      exact hqb
    · rw [if_neg hacc] at hfq
      exact absurd hfq (by simp)

/-- The root-completion test is invariant under an injective renaming
that fixes column 0. -/
theorem rootCompleteCol_map (g : Grammar) (σ : Nat → Nat) (hσ0 : σ 0 = 0)
    (hinj : Function.Injective σ) (col : Column) :
    rootCompleteCol g (col.map (mapItem σ)) = rootCompleteCol g col := by
  unfold rootCompleteCol
  rw [List.any_map]
  congr 1
  funext it
  show (it.node == g.root && it.isComplete && (σ it.start == 0)) = _
  have hz : (σ it.start == 0) = (it.start == 0) := by
    conv_lhs => rw [← hσ0]
    exact beq_map_inj σ hinj _ _
  rw [hz]

/-- Extending a renaming past its domain keeps strict monotonicity. -/
theorem extendFrom_mono (σ : Nat → Nat) (p : Nat) (hσ : StrictMono σ) :
    StrictMono (extendFrom σ p) := by
  intro a b hab
  unfold extendFrom
  by_cases ha : a ≤ p <;> by_cases hb : b ≤ p
  · rw [if_pos ha, if_pos hb]; exact hσ hab
  · rw [if_pos ha, if_neg hb]
    have h1 : σ a ≤ σ p := hσ.monotone ha
    omega
  · omega
  · rw [if_neg ha, if_neg hb]
    omega

/-- The extension agrees with the renaming on its domain. -/
theorem extendFrom_eq (σ : Nat → Nat) (p k : Nat) (h : k ≤ p) :
    extendFrom σ p k = σ k := by
  unfold extendFrom
  rw [if_pos h]

/-- The extension maps the successor position to the successor of the
renamed position. -/
theorem extendFrom_succ (σ : Nat → Nat) (p : Nat) :
    extendFrom σ p (p + 1) = σ p + 1 := by
  unfold extendFrom
  rw [if_neg (by omega)]
  omega

/-- Renamings compose on items. -/
theorem mapItem_comp (σ τ : Nat → Nat) (it : Item) :
    mapItem τ (mapItem σ it) = mapItem (fun k => τ (σ k)) it := rfl

/-- Simulation relations compose. -/
theorem SimRel_comp (σ τ : Nat → Nat) (a b c : PState)
    (h1 : SimRel σ a b) (h2 : SimRel τ b c) :
    SimRel (fun k => τ (σ k)) a c := by
  refine ⟨h2.geq.trans h1.geq, ?_, ?_, h2.mono.comp h1.mono, h1.clen, h2.clen',
    ?_, h1.starts⟩
  · rw [h2.blen, h1.blen]
  · rw [h1.szero, h2.szero]
  · intro j hj
    have hσj : σ j ≤ b.bytes.length := by
      rw [h1.blen]
      exact h1.mono.monotone hj
    rw [h2.crel (σ j) hσj, h1.crel j hj, List.map_map]
    congr 1

/-- The simulation relation ignores the capture-pass counters. -/
theorem SimRel_counters (σ : Nat → Nat) (s t : PState) (h : SimRel σ s t)
    (f1 f2 g1 g2 : Nat) :
    SimRel σ
      { s with fromRootCount := f1, provisionalCount := f2 }
      { t with fromRootCount := g1, provisionalCount := g2 } :=
  ⟨h.geq, h.blen, h.szero, h.mono, h.clen, h.clen', h.crel, h.starts⟩

/-- One byte consumption commutes with the simulation: the renamed
state consumes the same byte successfully and the results are related
by the extended renaming. -/
theorem consume_sim (σ : Nat → Nat) (s t : PState) (hrel : SimRel σ s t)
    (b : Nat) (s' : PState) (hc : consumeByte s b = Except.ok s') :
    ∃ t', consumeByte t b = Except.ok t' ∧
      SimRel (extendFrom σ s.bytes.length) s' t' := by
  have hinj : Function.Injective σ := hrel.mono.injective
  have hinj' : Function.Injective (extendFrom σ s.bytes.length) :=
    (extendFrom_mono σ _ hrel.mono).injective
  have hcolstarts : ∀ j, ∀ it ∈ s.cols.getD j [], it.start ≤ j := by
    intro j it hit
    by_cases hj : j ≤ s.bytes.length
    · exact hrel.starts j hj it hit
    · rw [List.getD_eq_default _ _ (by rw [hrel.clen]; omega)] at hit
      exact absurd hit (by simp)
  have hlaststarts : ∀ it ∈ lastCol s, it.start ≤ s.bytes.length :=
    hrel.starts s.bytes.length le_rfl
  have hlast : lastCol t = (lastCol s).map (mapItem σ) := by
    unfold lastCol
    rw [hrel.blen]
    exact hrel.crel s.bytes.length le_rfl
  have hlast' : lastCol t = (lastCol s).map (mapItem (extendFrom σ s.bytes.length)) := by
    rw [hlast]
    apply List.map_congr_left
    intro it hit
    unfold mapItem
    rw [extendFrom_eq σ _ _ (hlaststarts it hit)]
  have hscan : scanColumn t.g (lastCol t) b
      = (scanColumn s.g (lastCol s) b).map (mapItem (extendFrom σ s.bytes.length)) := by
    rw [hlast', hrel.geq]
    exact scanColumn_map s.g _ _ b
  have hcrel' : ∀ j, j ≤ s.bytes.length →
      t.cols.getD (extendFrom σ s.bytes.length j) []
        = (s.cols.getD j []).map (mapItem (extendFrom σ s.bytes.length)) := by
    intro j hj
    rw [extendFrom_eq σ _ _ hj, hrel.crel j hj]
    apply List.map_congr_left
    intro it hit
    unfold mapItem
    rw [extendFrom_eq σ _ _ (le_trans (hrel.starts j hj it hit) hj)]
  unfold consumeByte at hc ⊢
  by_cases hemp : (scanColumn s.g (lastCol s) b).isEmpty = true
  · rw [if_pos hemp] at hc
    exact absurd hc (by simp)
  · rw [if_neg hemp] at hc
    have hemp' : ¬((scanColumn t.g (lastCol t) b).isEmpty = true) := by
      rw [hscan]
      cases hsc : scanColumn s.g (lastCol s) b with
      | nil => rw [hsc] at hemp; exact absurd rfl hemp
      | cons x xs => simp
    rw [if_neg hemp']
    cases hcs : closure s.g s.cols (s.bytes.length + 1) (closureFuel s.g) []
        (scanColumn s.g (lastCol s) b) with
    | none => rw [hcs] at hc; exact absurd hc (by simp)
    | some newCol =>
      rw [hcs] at hc
      simp only at hc
      have hscanstarts : ∀ w ∈ scanColumn s.g (lastCol s) b,
          w.start ≤ s.bytes.length + 1 := by
        intro w hw
        have := scanColumn_starts s.g (lastCol s) b s.bytes.length hlaststarts w hw
        omega
      have hclos := closure_map s.g (extendFrom σ s.bytes.length) hinj'
        s.bytes.length s.cols t.cols hcrel' hcolstarts (closureFuel s.g) []
        (scanColumn s.g (lastCol s) b) (by simp) hscanstarts
      rw [hcs] at hclos
      have hpos : extendFrom σ s.bytes.length (s.bytes.length + 1)
          = t.bytes.length + 1 := by
        rw [extendFrom_succ, hrel.blen]
      rw [hpos] at hclos
      simp only [List.map_nil, Option.map_some'] at hclos
      have hgt2 : t.g = s.g := hrel.geq
      have hnewstarts : ∀ it ∈ newCol, it.start ≤ s.bytes.length + 1 :=
        closure_starts s.g s.cols (s.bytes.length + 1) hcolstarts
          (closureFuel s.g) [] (scanColumn s.g (lastCol s) b) (by simp)
          hscanstarts newCol hcs
      have hroot : rootCompleteCol s.g
          (newCol.map (mapItem (extendFrom σ s.bytes.length)))
          = rootCompleteCol s.g newCol := by
        apply rootCompleteCol_map
        · rw [extendFrom_eq σ _ 0 (Nat.zero_le _), hrel.szero]
        · exact hinj'
      have hrelout : SimRel (extendFrom σ s.bytes.length)
          { s with cols := s.cols ++ [newCol], bytes := s.bytes ++ [b] }
          { t with
              cols := t.cols ++ [newCol.map (mapItem (extendFrom σ s.bytes.length))],
              bytes := t.bytes ++ [b] } := by
        refine ⟨hrel.geq, ?_, ?_, extendFrom_mono σ _ hrel.mono, ?_, ?_, ?_, ?_⟩
        · simp only [List.length_append, List.length_cons, List.length_nil]
          rw [extendFrom_succ, hrel.blen]
        · rw [extendFrom_eq σ _ 0 (Nat.zero_le _), hrel.szero]
        · simp only [List.length_append, List.length_cons, List.length_nil, hrel.clen]
        · simp only [List.length_append, List.length_cons, List.length_nil, hrel.clen']
        · simp only [List.length_append, List.length_cons, List.length_nil]
          intro j hj
          by_cases hjp : j ≤ s.bytes.length
          · have hlt1 : extendFrom σ s.bytes.length j < t.cols.length := by
              rw [extendFrom_eq σ _ _ hjp, hrel.clen', hrel.blen]
              have := hrel.mono.monotone hjp
              omega
            have hlt2 : j < s.cols.length := by
              rw [hrel.clen]
              omega
            rw [getD_append_left _ _ _ _ hlt1, getD_append_left _ _ _ _ hlt2]
            exact hcrel' j hjp
          · have hj1 : j = s.bytes.length + 1 := by omega
            subst hj1
            have ht1 : extendFrom σ s.bytes.length (s.bytes.length + 1)
                = t.cols.length := by
              rw [extendFrom_succ, hrel.clen', hrel.blen]
            have hs1 : s.bytes.length + 1 = s.cols.length := by
              rw [hrel.clen]
            rw [ht1, hs1, getD_append_self, getD_append_self]
        · simp only [List.length_append, List.length_cons, List.length_nil]
          intro j hj it hit
          by_cases hjp : j ≤ s.bytes.length
          · have hlt2 : j < s.cols.length := by rw [hrel.clen]; omega
            rw [getD_append_left _ _ _ _ hlt2] at hit
            exact hrel.starts j hjp it hit
          · have hj1 : j = s.bytes.length + 1 := by omega
            subst hj1
            have hs1 : s.bytes.length + 1 = s.cols.length := by rw [hrel.clen]
            rw [hs1, getD_append_self] at hit
            exact hnewstarts it hit
      by_cases hrc : rootCompleteCol s.g newCol = true
      · rw [if_pos hrc] at hc
        injection hc with hc2
        subst hc2
        refine ⟨{ t with
            cols := t.cols ++
              [List.map (mapItem (extendFrom σ s.bytes.length)) newCol],
            bytes := t.bytes ++ [b],
            fromRootCount := t.fromRootCount + 1 }, ?_, ?_⟩
        · rw [hscan, hgt2, hclos]
          simp only
          rw [hroot, if_pos hrc]
        · exact SimRel_counters _ _ _ hrelout _ _ _ _
      · rw [if_neg hrc] at hc
        injection hc with hc2
        subst hc2
        refine ⟨{ t with
            cols := t.cols ++
              [List.map (mapItem (extendFrom σ s.bytes.length)) newCol],
            bytes := t.bytes ++ [b],
            provisionalCount := t.provisionalCount + 1 }, ?_, ?_⟩
        · rw [hscan, hgt2, hclos]
          simp only
          rw [hroot, if_neg hrc]
        · exact SimRel_counters _ _ _ hrelout _ _ _ _

/-- Consuming a concatenation is consuming the parts in order. -/
theorem consumeBytes_append (ws vs : List Nat) :
    ∀ st : PState, consumeBytes st (ws ++ vs)
      = (consumeBytes st ws).bind fun st' => consumeBytes st' vs := by
  induction ws with
  | nil => intro st; rfl
  | cons w ws ih =>
    intro st
    show (consumeByte st w).bind (fun st1 => consumeBytes st1 (ws ++ vs))
      = ((consumeByte st w).bind fun st1 => consumeBytes st1 ws).bind
          fun st' => consumeBytes st' vs
    cases hcb : consumeByte st w with
    | error e => rfl
    | ok st1 =>
      simp only [Except.bind]
      exact ih st1

/-- Whole-string consumption commutes with the simulation. -/
theorem consumeBytes_sim (ws : List Nat) :
    ∀ (σ : Nat → Nat) (s t : PState), SimRel σ s t →
      ∀ s', consumeBytes s ws = Except.ok s' →
        ∃ σ2 t', consumeBytes t ws = Except.ok t' ∧ SimRel σ2 s' t' := by
  induction ws with
  | nil =>
    intro σ s t hrel s' hc
    injection hc with hc2
    subst hc2
    exact ⟨σ, t, rfl, hrel⟩
  | cons w ws ih =>
    intro σ s t hrel s' hc
    show ∃ σ2 t', (consumeByte t w).bind _ = _ ∧ _
    have hc' : (consumeByte s w).bind (fun st' => consumeBytes st' ws)
        = Except.ok s' := hc
    cases hcb : consumeByte s w with
    | error e => rw [hcb] at hc'; exact absurd hc' (by simp [Except.bind])
    | ok s1 =>
      rw [hcb] at hc'
      obtain ⟨t1, hct1, hrel1⟩ := consume_sim σ s t hrel w s1 hcb
      obtain ⟨σ2, t', hct', hrel'⟩ := ih _ s1 t1 hrel1 s' hc'
      refine ⟨σ2, t', ?_, hrel'⟩
      rw [hct1]
      exact hct'

/-- Simulation-related states expose identical `valid_next_bytes`
results. -/
theorem validNextBytes_simrel (σ : Nat → Nat) (s t : PState)
    (hrel : SimRel σ s t) : validNextBytes t = validNextBytes s := by
  unfold validNextBytes
  have hlast : lastCol t = (lastCol s).map (mapItem σ) := by
    unfold lastCol
    rw [hrel.blen]
    exact hrel.crel s.bytes.length le_rfl
  rw [hlast, hrel.geq]
  unfold expectedTerminals
  rw [List.foldl_map]
  rfl

/-- The cutoff renamings are strictly monotone. -/
theorem sigCut_mono (c d : Nat) : StrictMono (sigCut c d) := by
  intro a b hab
  unfold sigCut
  split_ifs <;> omega

/-- The cutoff renaming with shift 0 leaves items unchanged. -/
theorem mapItem_sigCut_zero (c : Nat) (it : Item) :
    mapItem (sigCut c 0) it = it := by
  unfold mapItem sigCut
  cases it with
  | mk nd vs ps st =>
    have hst : (if st ≤ c then st else st + 0) = st := by split_ifs <;> omega
    simp only [hst]

/-- Stepping the pumping chain composes to the next cutoff
renaming. -/
theorem sigCut_compose (c d : Nat) :
    (fun k => extendFrom (sigCut c d) (c + 1) (sigCut c 1 k))
      = sigCut c (d + 1) := by
  funext k
  unfold extendFrom sigCut
  split_ifs <;> omega

/-- The pumping chain: starting from an anchor state one column past
the cutoff, consuming `d` further copies of the repeated byte
succeeds and yields a state simulation-related to the anchor by the
`d`-shifted cutoff renaming. -/
theorem chainGen (c : Nat) (anchor anchor' : PState) (b : Nat)
    (hlen : anchor.bytes.length = c + 1)
    (hbase0 : SimRel (sigCut c 0) anchor anchor)
    (hbase1 : SimRel (sigCut c 1) anchor anchor')
    (hstep : consumeByte anchor b = Except.ok anchor') :
    ∀ d, ∃ s, consumeBytes anchor (List.replicate d b) = Except.ok s ∧
      SimRel (sigCut c d) anchor s := by
  intro d
  induction d with
  | zero => exact ⟨anchor, rfl, hbase0⟩
  | succ d ih =>
    obtain ⟨s, hs, hrel⟩ := ih
    obtain ⟨t', hct', hrel'⟩ := consume_sim (sigCut c d) anchor s hrel b anchor' hstep
    rw [hlen] at hrel'
    have hcomp := SimRel_comp (sigCut c 1) (extendFrom (sigCut c d) (c + 1))
      anchor anchor' t' hbase1 hrel'
    rw [sigCut_compose c d] at hcomp
    refine ⟨t', ?_, hcomp⟩
    rw [List.replicate_succ', consumeBytes_append, hs]
    simp only [Except.bind]
    show (consumeByte s b).bind (fun st' => consumeBytes st' []) = Except.ok t'
    rw [hct']
    rfl

/-- Every well-formed state simulates itself under the unshifted
cutoff renaming. -/
theorem SimRel_sigCut_zero (c : Nat) (s : PState)
    (hclen : s.cols.length = s.bytes.length + 1)
    (hstarts : ∀ j, j ≤ s.bytes.length → ∀ it ∈ s.cols.getD j [], it.start ≤ j) :
    SimRel (sigCut c 0) s s := by
  have hid : ∀ k, sigCut c 0 k = k := by
    intro k
    unfold sigCut
    split_ifs <;> omega
  refine ⟨rfl, (hid _).symm, hid 0, sigCut_mono c 0, hclen, hclen, ?_, hstarts⟩
  intro j hj
  rw [hid j]
  have hmap : (s.cols.getD j []).map (mapItem (sigCut c 0)) = s.cols.getD j [] := by
    rw [List.map_congr_left (fun it _ => mapItem_sigCut_zero c it)]
    simp
  rw [hmap]

/-- Base relation of the `a`-pumping chain. -/
theorem zoBaseA0 : SimRel (sigCut 1 0) (zoState [97, 97]) (zoState [97, 97]) := by
  refine SimRel_sigCut_zero 1 _ (by decide) ?_
  intro j hj
  have hj2 : j ≤ 2 := hj
  clear hj
  interval_cases j <;> decide

/-- Step relation of the `a`-pumping chain. -/
theorem zoBaseA1 :
    SimRel (sigCut 1 1) (zoState [97, 97]) (zoState [97, 97, 97]) := by
  refine ⟨rfl, by decide, by decide, sigCut_mono 1 1, by decide, by decide, ?_, ?_⟩
  · intro j hj
    have hj2 : j ≤ 2 := hj
    clear hj
    interval_cases j <;> decide
  · intro j hj
    have hj2 : j ≤ 2 := hj
    clear hj
    interval_cases j <;> decide

/-- The `a`-pumping chain of `gZeroOne`. -/
theorem zoChainA : ∀ d, ∃ s,
    consumeBytes (zoState [97, 97]) (List.replicate d 97) = Except.ok s ∧
      SimRel (sigCut 1 d) (zoState [97, 97]) s :=
  chainGen 1 (zoState [97, 97]) (zoState [97, 97, 97]) 97 (by decide)
    zoBaseA0 zoBaseA1 (by rfl)

/-- Base relation of the `b`-pumping chain after `aa`. -/
theorem zoBaseU0 :
    SimRel (sigCut 3 0) (zoState [97, 97, 98, 98]) (zoState [97, 97, 98, 98]) := by
  refine SimRel_sigCut_zero 3 _ (by decide) ?_
  intro j hj
  have hj2 : j ≤ 4 := hj
  clear hj
  interval_cases j <;> decide

/-- Step relation of the `b`-pumping chain after `aa`. -/
theorem zoBaseU1 :
    SimRel (sigCut 3 1) (zoState [97, 97, 98, 98])
      (zoState [97, 97, 98, 98, 98]) := by
  refine ⟨rfl, by decide, by decide, sigCut_mono 3 1, by decide, by decide, ?_, ?_⟩
  · intro j hj
    have hj2 : j ≤ 4 := hj
    clear hj
    interval_cases j <;> decide
  · intro j hj
    have hj2 : j ≤ 4 := hj
    clear hj
    interval_cases j <;> decide

/-- The `b`-pumping chain of `gZeroOne` after `aa`. -/
theorem zoChainU : ∀ d, ∃ s,
    consumeBytes (zoState [97, 97, 98, 98]) (List.replicate d 98) = Except.ok s ∧
      SimRel (sigCut 3 d) (zoState [97, 97, 98, 98]) s :=
  chainGen 3 (zoState [97, 97, 98, 98]) (zoState [97, 97, 98, 98, 98]) 98
    (by decide) zoBaseU0 zoBaseU1 (by rfl)

/-- Base relation of the `b`-pumping chain with no `a`s. -/
theorem zoBaseV0 : SimRel (sigCut 1 0) (zoState [98, 98]) (zoState [98, 98]) := by
  refine SimRel_sigCut_zero 1 _ (by decide) ?_
  intro j hj
  have hj2 : j ≤ 2 := hj
  clear hj
  interval_cases j <;> decide

/-- Step relation of the `b`-pumping chain with no `a`s. -/
theorem zoBaseV1 :
    SimRel (sigCut 1 1) (zoState [98, 98]) (zoState [98, 98, 98]) := by
  refine ⟨rfl, by decide, by decide, sigCut_mono 1 1, by decide, by decide, ?_, ?_⟩
  · intro j hj
    have hj2 : j ≤ 2 := hj
    clear hj
    interval_cases j <;> decide
  · intro j hj
    have hj2 : j ≤ 2 := hj
    clear hj
    interval_cases j <;> decide

/-- The `b`-pumping chain of `gZeroOne` with no `a`s. -/
theorem zoChainV : ∀ d, ∃ s,
    consumeBytes (zoState [98, 98]) (List.replicate d 98) = Except.ok s ∧
      SimRel (sigCut 1 d) (zoState [98, 98]) s :=
  chainGen 1 (zoState [98, 98]) (zoState [98, 98, 98]) 98 (by decide)
    zoBaseV0 zoBaseV1 (by rfl)

/-- Base relation of the `b`-pumping chain after one `a`. -/
theorem zoBaseW0 :
    SimRel (sigCut 2 0) (zoState [97, 98, 98]) (zoState [97, 98, 98]) := by
  refine SimRel_sigCut_zero 2 _ (by decide) ?_
  intro j hj
  have hj2 : j ≤ 3 := hj
  clear hj
  interval_cases j <;> decide

/-- Step relation of the `b`-pumping chain after one `a`. -/
theorem zoBaseW1 :
    SimRel (sigCut 2 1) (zoState [97, 98, 98]) (zoState [97, 98, 98, 98]) := by
  refine ⟨rfl, by decide, by decide, sigCut_mono 2 1, by decide, by decide, ?_, ?_⟩
  · intro j hj
    have hj2 : j ≤ 3 := hj
    clear hj
    interval_cases j <;> decide
  · intro j hj
    have hj2 : j ≤ 3 := hj
    clear hj
    interval_cases j <;> decide

/-- The `b`-pumping chain of `gZeroOne` after one `a`. -/
theorem zoChainW : ∀ d, ∃ s,
    consumeBytes (zoState [97, 98, 98]) (List.replicate d 98) = Except.ok s ∧
      SimRel (sigCut 2 d) (zoState [97, 98, 98]) s :=
  chainGen 2 (zoState [97, 98, 98]) (zoState [97, 98, 98, 98]) 98 (by decide)
    zoBaseW0 zoBaseW1 (by rfl)

/-- Running an extended word continues from the prefix's state. -/
theorem runOn_append (g : Grammar) (ws vs : List Nat) (st : PState)
    (h : runOn g ws = some st) :
    runOn g (ws ++ vs) = (consumeBytes st vs).toOption := by
  unfold runOn at h ⊢
  cases hinit : initState g with
  | error e => rw [hinit] at h; exact absurd h (by simp)
  | ok st0 =>
    rw [hinit] at h
    simp only at h ⊢
    rw [consumeBytes_append]
    cases hws : consumeBytes st0 ws with
    | error e => rw [hws] at h; exact absurd h (by simp [Except.toOption])
    | ok st1 =>
      rw [hws] at h
      simp only [Except.toOption, Option.some.injEq] at h
      subst h
      rfl

/-- A terminal list whose members are exactly two given nodes, as a
membership equivalence. -/
theorem validMem2 (l : List GNode) (a b : GNode)
    (h1 : ∀ t ∈ l, t = a ∨ t = b) (h2 : a ∈ l) (h3 : b ∈ l) :
    ∀ t, t ∈ l ↔ (t = a ∨ t = b) := by
  intro t
  constructor
  · exact h1 t
  · rintro (rfl | rfl)
    · exact h2
    · exact h3

/-- A terminal list whose members are exactly one given node, as a
membership equivalence. -/
theorem validMem1 (l : List GNode) (a : GNode)
    (h1 : ∀ t ∈ l, t = a) (h2 : a ∈ l) :
    ∀ t, t ∈ l ↔ t = a := by
  intro t
  constructor
  · exact h1 t
  · rintro rfl
    exact h2

/-- Claim C7: for the grammar `zero_or_more("a") + one_or_more("b")`,
`valid_next_bytes()` equals the set containing exactly `Byte a` and
`Byte b` before any byte and after any number of `a` bytes, and the
set containing exactly `Byte b` from the first consumed `b` onwards,
for any further number of `b` bytes — so no further `a` is ever
accepted once a `b` has been consumed. -/
theorem claim7_repetition_valid_next_bytes (n m : Nat) :
    (∃ st, runOn gZeroOne (List.replicate n 97) = some st ∧
      (∀ t, t ∈ validNextBytes st
        ↔ (t = GNode.byte 97 ∨ t = GNode.byte 98))) ∧
    (∃ st,
      runOn gZeroOne (List.replicate n 97 ++ List.replicate (m + 1) 98)
        = some st ∧
      (∀ t, t ∈ validNextBytes st ↔ t = GNode.byte 98)) := by
  rcases n with _ | _ | d
  · constructor
    · exact ⟨zoState [], rfl,
        validMem2 _ _ _ (by decide) (by decide) (by decide)⟩
    · rcases m with _ | j
      · exact ⟨zoState [98], rfl, validMem1 _ _ (by decide) (by decide)⟩
      · obtain ⟨s, hcons, hrel⟩ := zoChainV j
        have hsplit : List.replicate 0 97 ++ List.replicate (j + 1 + 1) 98
            = [98, 98] ++ List.replicate j 98 := rfl
        refine ⟨s, ?_, ?_⟩
        · rw [hsplit, runOn_append gZeroOne [98, 98] (List.replicate j 98)
            (zoState [98, 98]) rfl, hcons]
          rfl
        · rw [validNextBytes_simrel _ _ _ hrel]
          exact validMem1 _ _ (by decide) (by decide)
  · constructor
    · exact ⟨zoState [97], rfl,
        validMem2 _ _ _ (by decide) (by decide) (by decide)⟩
    · rcases m with _ | j
      · exact ⟨zoState [97, 98], rfl, validMem1 _ _ (by decide) (by decide)⟩
      · obtain ⟨s, hcons, hrel⟩ := zoChainW j
        have hsplit : List.replicate 1 97 ++ List.replicate (j + 1 + 1) 98
            = [97, 98, 98] ++ List.replicate j 98 := rfl
        refine ⟨s, ?_, ?_⟩
        · rw [hsplit, runOn_append gZeroOne [97, 98, 98] (List.replicate j 98)
            (zoState [97, 98, 98]) rfl, hcons]
          rfl
        · rw [validNextBytes_simrel _ _ _ hrel]
          exact validMem1 _ _ (by decide) (by decide)
  · obtain ⟨s, hcons, hrel⟩ := zoChainA d
    have hrunpre : runOn gZeroOne (List.replicate (d + 1 + 1) 97) = some s := by
      rw [show List.replicate (d + 1 + 1) 97
          = [97, 97] ++ List.replicate d 97 from rfl,
        runOn_append gZeroOne [97, 97] (List.replicate d 97)
          (zoState [97, 97]) rfl, hcons]
      rfl
    constructor
    · refine ⟨s, hrunpre, ?_⟩
      rw [validNextBytes_simrel _ _ _ hrel]
      exact validMem2 _ _ _ (by decide) (by decide) (by decide)
    · have hbrun : ∃ u,
          consumeBytes (zoState [97, 97]) (List.replicate (m + 1) 98)
            = Except.ok u ∧ (∀ t, t ∈ validNextBytes u ↔ t = GNode.byte 98) := by
        rcases m with _ | j
        · exact ⟨zoState [97, 97, 98], by rfl,
            validMem1 _ _ (by decide) (by decide)⟩
        · obtain ⟨u, hu, hrelu⟩ := zoChainU j
          refine ⟨u, ?_, ?_⟩
          · rw [show List.replicate (j + 1 + 1) 98
                = [98, 98] ++ List.replicate j 98 from rfl,
              consumeBytes_append,
              show consumeBytes (zoState [97, 97]) [98, 98]
                = Except.ok (zoState [97, 97, 98, 98]) from rfl]
            simp only [Except.bind]
            exact hu
          · rw [validNextBytes_simrel _ _ _ hrelu]
            exact validMem1 _ _ (by decide) (by decide)
      obtain ⟨u, hu, huval⟩ := hbrun
      obtain ⟨σ2, u', hu', hrelu'⟩ := consumeBytes_sim
        (List.replicate (m + 1) 98) (sigCut 1 d) (zoState [97, 97]) s hrel u hu
      refine ⟨u', ?_, ?_⟩
      · rw [runOn_append gZeroOne (List.replicate (d + 1 + 1) 97)
          (List.replicate (m + 1) 98) s hrunpre, hu']
        rfl
      · rw [validNextBytes_simrel _ _ _ hrelu']
        exact huval

end Guidance

